import Mathlib

/-!
# crcfactory: a parametrised CRC engine

A shallow embedding of `crcfactory.h` with `CRCFACTORY_CRC_TYPE` and
`CRCFACTORY_CRCTABLE_TYPE` both `uint64_t` (the configuration used by
`utils/crctable.c`).  Register values are natural numbers below `2 ^ 64`;
every operation that can leave that range in C is reduced modulo `2 ^ 64`
explicitly.  `int width` is a natural number (the engine is only specified
for `1 ≤ width ≤ 64`), `uint8_t` data are natural numbers below `256`, and a
byte buffer with its length is a `List Nat`.  A table is a `List Nat`; a read
outside the table has no defined value in C and is `none` here.

The one place where the source leaves the range C defines is `_crcfactory_mask` at
`width = 64`: both of its expressions shift `1ULL` by `width`.  There the embedding
follows the machine code gcc emits for x86_64 (see `one_shl_is_one`, `one_shl_sub_one`),
under which the mask is `0` and the special case the source's comment asks for is not
taken.
-/

namespace Crcfactory

/-! ## Machine arithmetic on `uint64_t` -/

/-- Left shift `a << k` on `uint64_t`.  The result is truncated to 64 bits.  The shift
count is taken modulo 64, as the x86_64 shift instructions take it.  Outside
`_crcfactory_mask` every shift of the engine has a count below 64 when
`1 ≤ width ≤ 64`. -/
def shl (a k : Nat) : Nat := (a <<< (k % 64)) % 2 ^ 64

/-- Right shift `a >> k` on `uint64_t`, count taken modulo 64 like `shl`. -/
def shr (a k : Nat) : Nat := a >>> (k % 64)

/-- Bitwise complement `~a` on `uint64_t`. -/
def not64 (a : Nat) : Nat := 2 ^ 64 - 1 - a % 2 ^ 64

/-- The test `(1ULL << width) == 1` of `_crcfactory_mask`.  For `width < 64` it holds
exactly when `width` is 0, and gcc emits it as the comparison `width == 0`; at
`width = 64`, where C leaves the shift undefined, the emitted test is therefore false. -/
def one_shl_is_one (width : Nat) : Bool := decide (width = 0)

/-- The mask `(1ULL << width) - 1` of `_crcfactory_mask`.  gcc emits it as
`~(-1 << width)`, the hardware taking the shift count modulo 64: this is `2 ^ width - 1`
for `width < 64` and `0` at `width = 64`, where C leaves the shift undefined. -/
def one_shl_sub_one (width : Nat) : Nat := not64 (shl (2 ^ 64 - 1) width)

/-- The body of `for (bit = 8; bit > 0; bit--) { state = step(state); }`,
with `bit` the number of iterations still to run. -/
def loop (step : Nat → Nat) : Nat → Nat → Nat
  | 0, state => state
  | bit + 1, state => loop step bit (step state)

/-! ## Reflector -/

def _crcfactory_reflect8 (width value : Nat) : Nat :=
  let value := shl (value &&& 0x55) 1 ||| shr (value &&& 0xaa) 1
  let value := shl (value &&& 0x33) 2 ||| shr (value &&& 0xcc) 2
  let value := shl value 4 ||| shr value 4
  shr (value &&& 0xff) (8 - width)

def _crcfactory_reflect16 (width value _8 : Nat) : Nat :=
  let value := shl (value &&& 0x5555) 1 ||| shr (value &&& 0xaaaa) 1
  let value := shl (value &&& 0x3333) 2 ||| shr (value &&& 0xcccc) 2
  let value := shl (value &&& 0x0f0f) 4 ||| shr (value &&& 0xf0f0) 4
  let value := shl value _8 ||| shr value _8
  shr (value &&& 0xffff) (16 - width)

def _crcfactory_reflect32 (width value _8 _16 : Nat) : Nat :=
  let value := shl (value &&& 0x55555555) 1 ||| shr (value &&& 0xaaaaaaaa) 1
  let value := shl (value &&& 0x33333333) 2 ||| shr (value &&& 0xcccccccc) 2
  let value := shl (value &&& 0x0f0f0f0f) 4 ||| shr (value &&& 0xf0f0f0f0) 4
  let value := shl (value &&& 0x00ff00ff) _8 ||| shr (value &&& 0xff00ff00) _8
  let value := shl value _16 ||| shr value _16
  shr (value &&& 0xffffffff) (32 - width)

def _crcfactory_reflect64 (width value _8 _16 _32 : Nat) : Nat :=
  let value := shl (value &&& 0x5555555555555555) 1 ||| shr (value &&& 0xaaaaaaaaaaaaaaaa) 1
  let value := shl (value &&& 0x3333333333333333) 2 ||| shr (value &&& 0xcccccccccccccccc) 2
  let value := shl (value &&& 0x0f0f0f0f0f0f0f0f) 4 ||| shr (value &&& 0xf0f0f0f0f0f0f0f0) 4
  let value := shl (value &&& 0x00ff00ff00ff00ff) _8 ||| shr (value &&& 0xff00ff00ff00ff00) _8
  let value := shl (value &&& 0x0000ffff0000ffff) _16 ||| shr (value &&& 0xffff0000ffff0000) _16
  let value := shl value _32 ||| shr value _32
  shr (value &&& 0xffffffffffffffff) (64 - width)

def crcfactory_reflect (width value : Nat) : Nat :=
  if width > 32 then
    _crcfactory_reflect64 width value 8 16 32
  else if width > 16 then
    _crcfactory_reflect32 width value 8 16
  else if width > 8 then
    _crcfactory_reflect16 width value 8
  else
    _crcfactory_reflect8 width value

/-! ## Masking, normalizer, bitwise engine, finalizer -/

def _crcfactory_mask (width : Nat) (reflected : Bool) (value : Nat) : Nat :=
  if !reflected && decide (width ≤ 8) then
    value &&& 0xff
  else if one_shl_is_one width then
    value
  else
    value &&& one_shl_sub_one width

def crcfactory_setup_state (width : Nat) (reflected : Bool) (iv : Nat) : Nat :=
  if reflected then
    crcfactory_reflect width iv
  else if width < 8 then
    shl iv (8 - width)
  else
    iv

def crcfactory_setup_poly (width : Nat) (reflected : Bool) (poly : Nat) : Nat :=
  if reflected then
    crcfactory_reflect width poly
  else if width < 8 then
    shl poly (8 - width)
  else
    poly

/-- One pass of the bit loop of `crcfactory_update`, reflected branch. -/
def step_reflected (poly state : Nat) : Nat :=
  if state &&& 1 ≠ 0 then shr state 1 ^^^ poly else shr state 1

/-- One pass of the bit loop of `crcfactory_update`, branch `width < 8`. -/
def step_sub_byte (poly state : Nat) : Nat :=
  if state &&& 0x80 ≠ 0 then shl state 1 ^^^ poly else shl state 1

/-- One pass of the bit loop of `crcfactory_update`, last branch. -/
def step_wide (width poly state : Nat) : Nat :=
  if state &&& shl 1 (width - 1) ≠ 0 then shl state 1 ^^^ poly else shl state 1

def crcfactory_update (width : Nat) (reflected : Bool) (poly state data : Nat) : Nat :=
  if reflected then
    loop (step_reflected poly) 8 (state ^^^ data)
  else if width < 8 then
    loop (step_sub_byte poly) 8 (state ^^^ data)
  else
    loop (step_wide width poly) 8 (state ^^^ shl data (width - 8))

def crcfactory_result (width : Nat) (reflected : Bool) (xorout state : Nat) : Nat :=
  let crc :=
    if reflected then
      state
    else if width < 8 then
      shr (state &&& 0xff) (8 - width)
    else
      _crcfactory_mask width reflected state
  crc ^^^ xorout

def crcfactory_crc (width : Nat) (reflected : Bool) (poly iv xorout : Nat)
    (data : List Nat) : Nat :=
  let poly := crcfactory_setup_poly width reflected poly
  let state := crcfactory_setup_state width reflected iv
  let state := data.foldl (fun state d => crcfactory_update width reflected poly state d) state
  crcfactory_result width reflected xorout state

/-! ## Table builder and table-driven engine -/

/-- The 256 entries `crcfactory_table_init` writes, entry `i` at position `i`. -/
def crcfactory_table_init (width : Nat) (reflected : Bool) (poly : Nat) : List Nat :=
  let poly := crcfactory_setup_poly width reflected poly
  (List.range 256).map fun i =>
    _crcfactory_mask width reflected (crcfactory_update width reflected poly 0 i)

/-- A table read `table[i]`; `none` when `i` is outside the table. -/
def crcfactory_table_update (width : Nat) (reflected : Bool) (table : List Nat)
    (state data : Nat) : Option Nat :=
  if reflected then
    (table[(data ^^^ state) &&& 0xff]?).map fun t => t ^^^ shr state 8
  else if width ≤ 8 then
    table[data ^^^ state]?
  else
    (table[(data ^^^ shr state (width - 8)) &&& 0xff]?).map fun t => t ^^^ shl state 8

/-- The byte loop of `crcfactory_table_crc`; it stops with `none` at the first
table read that is out of range. -/
def table_loop (width : Nat) (reflected : Bool) (table : List Nat) :
    List Nat → Nat → Option Nat
  | [], state => some state
  | d :: ds, state =>
    (crcfactory_table_update width reflected table state d).bind
      (table_loop width reflected table ds)

def crcfactory_table_crc (width : Nat) (reflected : Bool) (table : List Nat)
    (iv xorout : Nat) (data : List Nat) : Option Nat :=
  let state := crcfactory_setup_state width reflected iv
  (table_loop width reflected table data state).map (crcfactory_result width reflected xorout)

/-- The ASCII bytes of `"123456789"`. -/
def check_input : List Nat := [0x31, 0x32, 0x33, 0x34, 0x35, 0x36, 0x37, 0x38, 0x39]

/-- How far a state `t` of the table-driven engine and a state `s` of the bitwise
engine have to coincide: exactly in reflected mode; on the low byte (with `t` itself a
byte) in the non-reflected mode for `width ≤ 8`; on the low `width` bits otherwise. -/
def states_agree (width : Nat) (reflected : Bool) (t s : Nat) : Prop :=
  if reflected then t = s
  else if width ≤ 8 then t < 256 ∧ t = s % 2 ^ 8
  else t < 2 ^ 64 ∧ s < 2 ^ 64 ∧ t % 2 ^ width = s % 2 ^ width

/-! ## Polynomials over GF(2) -/

/-- The polynomial over GF(2) read off a register value: bit `k` of `n` is the
coefficient of `x ^ k`. -/
noncomputable def gf2_poly (n : Nat) : Polynomial (ZMod 2) :=
  ∑ k in Finset.range n.size, if n.testBit k then Polynomial.X ^ k else 0

/-- The message polynomial `M`: each byte contributes its bits most significant bit
first, and the first byte holds the highest degrees. -/
noncomputable def message_poly : List Nat → Polynomial (ZMod 2)
  | [] => 0
  | d :: ds => gf2_poly d * Polynomial.X ^ (8 * ds.length) + message_poly ds

/-- The generator polynomial `G(x) = x ^ width + P(x)`, `P` holding `poly`'s bits. -/
noncomputable def generator_poly (width poly : Nat) : Polynomial (ZMod 2) :=
  Polynomial.X ^ width + gf2_poly poly

/-! ## Notions the claims are stated with -/

/-- The index `crcfactory_table_update` reads the table at, for a state and a data byte. -/
def table_index (width : Nat) (reflected : Bool) (state data : Nat) : Nat :=
  if reflected then (data ^^^ state) &&& 0xff
  else if width ≤ 8 then data ^^^ state
  else (data ^^^ shr state (width - 8)) &&& 0xff

/-- The `width / 8` bytes of a checksum `c`: most significant byte first when
`reflected` is false, least significant byte first when `reflected` is true. -/
def checksum_bytes (width : Nat) (reflected : Bool) (c : Nat) : List Nat :=
  (List.range (width / 8)).map fun k =>
    if reflected then (c >>> (8 * k)) &&& 0xff
    else (c >>> (width - 8 * (k + 1))) &&& 0xff

/-- Bytewise XOR of two messages. -/
def xor_bytes (a b : List Nat) : List Nat := List.zipWith (fun x y => x ^^^ y) a b

/-- The message with the 8 bits of each byte reversed. -/
def reflect_bytes (data : List Nat) : List Nat := data.map (crcfactory_reflect 8)

set_option maxRecDepth 100000

/-! ## Machine arithmetic lemmas -/

theorem shl_of_lt (a : Nat) {k : Nat} (hk : k < 64) : shl a k = (a <<< k) % 2 ^ 64 := by
  simp [shl, Nat.mod_eq_of_lt hk]

theorem shr_of_lt (a : Nat) {k : Nat} (hk : k < 64) : shr a k = a >>> k := by
  simp [shr, Nat.mod_eq_of_lt hk]

theorem shl_lt (a k : Nat) : shl a k < 2 ^ 64 := Nat.mod_lt _ (by decide)

theorem shr_lt {a : Nat} (k : Nat) (ha : a < 2 ^ 64) : shr a k < 2 ^ 64 := by
  unfold shr
  rw [Nat.shiftRight_eq_div_pow]
  exact Nat.lt_of_le_of_lt (Nat.div_le_self _ _) ha

theorem testBit_shl (a : Nat) {k : Nat} (hk : k < 64) (i : Nat) :
    (shl a k).testBit i = (decide (i < 64) && (decide (k ≤ i) && a.testBit (i - k))) := by
  rw [shl_of_lt a hk, Nat.testBit_mod_two_pow, Nat.testBit_shiftLeft]

theorem testBit_shr (a : Nat) {k : Nat} (hk : k < 64) (i : Nat) :
    (shr a k).testBit i = a.testBit (k + i) := by
  rw [shr_of_lt a hk, Nat.testBit_shiftRight]

theorem shl_one_of_lt {k : Nat} (hk : k < 64) : shl 1 k = 2 ^ k := by
  rw [shl_of_lt 1 hk, Nat.one_shiftLeft]
  exact Nat.mod_eq_of_lt (Nat.pow_lt_pow_right (by decide) hk)

theorem and_ff (x : Nat) : x &&& 0xff = x % 2 ^ 8 := Nat.and_pow_two_sub_one_eq_mod x 8

theorem testBit_not64 (a i : Nat) (ha : a < 2 ^ 64) :
    (not64 a).testBit i = (decide (i < 64) && !a.testBit i) := by
  unfold not64
  rw [Nat.mod_eq_of_lt ha, Nat.sub_sub, Nat.add_comm 1 a]
  exact Nat.testBit_two_pow_sub_succ ha i

theorem testBit_one_shl_sub_one (width i : Nat) (hw : width < 64) :
    (one_shl_sub_one width).testBit i = decide (i < width) := by
  unfold one_shl_sub_one
  rw [testBit_not64 _ _ (shl_lt _ _), testBit_shl _ hw, Nat.testBit_two_pow_sub_one]
  by_cases h1 : i < 64
  · by_cases h2 : width ≤ i
    · have h3 : i - width < 64 := by omega
      have h4 : ¬ i < width := by omega
      simp [h1, h2, h3, h4]
    · have h4 : i < width := by omega
      simp [h1, h2, h4]
  · have h4 : ¬ i < width := by omega
    simp [h1, h4]

theorem one_shl_sub_one_64 : one_shl_sub_one 64 = 0 := by decide

/-- What `_crcfactory_mask` returns outside its byte branch for `width < 64`. -/
theorem mask_general (width : Nat) (reflected : Bool) (value : Nat)
    (hb : (!reflected && decide (width ≤ 8)) = false) (hw1 : 1 ≤ width) (hw : width < 64) :
    _crcfactory_mask width reflected value = value % 2 ^ width := by
  unfold _crcfactory_mask one_shl_is_one
  rw [hb]
  have h0 : ¬ width = 0 := by omega
  simp only [Bool.false_eq_true, if_false, h0, decide_False]
  apply Nat.eq_of_testBit_eq
  intro i
  rw [Nat.testBit_and, testBit_one_shl_sub_one width i hw, Nat.testBit_mod_two_pow,
    Bool.and_comm]

/-- At `width = 64` the mask is `0`. -/
theorem mask_64 (reflected : Bool) (value : Nat) : _crcfactory_mask 64 reflected value = 0 := by
  unfold _crcfactory_mask one_shl_is_one
  have hb : (!reflected && decide (64 ≤ 8)) = false := by simp
  rw [hb, one_shl_sub_one_64]
  simp

/-! ## Reflector: bit-level description -/

theorem testBit_of_ge_of_lt {m j n : Nat} (hm : m < 2 ^ n) (hj : n ≤ j) : m.testBit j = false :=
  Nat.testBit_lt_two_pow (Nat.lt_of_lt_of_le hm (Nat.pow_le_pow_right (by decide) hj))

/-- One masked swap stage of the reflector, read at bit `j`. -/
theorem testBit_swap (m1 m2 k w j : Nat) (hk : k < 64) :
    (shl (w &&& m1) k ||| shr (w &&& m2) k).testBit j =
      if j < 64 ∧ k ≤ j ∧ m1 / 2 ^ (j - k) % 2 = 1 then
        (if m2 / 2 ^ (k + j) % 2 = 1 then (w.testBit (j - k) || w.testBit (k + j))
          else w.testBit (j - k))
      else (if m2 / 2 ^ (k + j) % 2 = 1 then w.testBit (k + j) else false) := by
  rw [Nat.testBit_or, testBit_shl _ hk, testBit_shr _ hk, Nat.testBit_and, Nat.testBit_and,
    Nat.testBit_to_div_mod (x := m1), Nat.testBit_to_div_mod (x := m2)]
  by_cases h1 : j < 64 <;> by_cases h2 : k ≤ j <;> by_cases h3 : m1 / 2 ^ (j - k) % 2 = 1 <;>
    by_cases h4 : m2 / 2 ^ (k + j) % 2 = 1 <;> simp [h1, h2, h3, h4]

/-- The last, unmasked swap stage of the reflector, read at bit `j`. -/
theorem testBit_rot (k w j : Nat) (hk : k < 64) :
    (shl w k ||| shr w k).testBit j =
      if j < 64 ∧ k ≤ j then (w.testBit (j - k) || w.testBit (k + j)) else w.testBit (k + j) := by
  rw [Nat.testBit_or, testBit_shl _ hk, testBit_shr _ hk]
  by_cases h1 : j < 64 <;> by_cases h2 : k ≤ j <;> simp [h1, h2]

theorem testBit_reflect8_core (value j : Nat) :
    ((
      let value := shl (value &&& 0x55) 1 ||| shr (value &&& 0xaa) 1
      let value := shl (value &&& 0x33) 2 ||| shr (value &&& 0xcc) 2
      let value := shl value 4 ||| shr value 4
      value &&& 0xff) : Nat).testBit j = (decide (j < 8) && value.testBit (7 - j)) := by
  rcases Nat.lt_or_ge j 8 with h | h
  · interval_cases j <;>
      simp [-Nat.testBit_zero, -Nat.testBit_or, testBit_swap, testBit_rot,
        Nat.testBit_to_div_mod (x := 0xff)]
  · simp only [Nat.testBit_and]
    rw [testBit_of_ge_of_lt (by decide : 0xff < 2 ^ 8) h]
    simp [Nat.not_lt.mpr h]

theorem testBit_reflect8 (width value i : Nat) (hw1 : 1 ≤ width) (hw : width ≤ 8) :
    (_crcfactory_reflect8 width value).testBit i
      = (decide (i < width) && value.testBit (width - 1 - i)) := by
  unfold _crcfactory_reflect8
  rw [testBit_shr _ (by omega : 8 - width < 64)]
  have := testBit_reflect8_core value (8 - width + i)
  simp only at this ⊢
  rw [this]
  by_cases hi : i < width
  · have e : 7 - (8 - width + i) = width - 1 - i := by omega
    have e2 : 8 - width + i < 8 := by omega
    simp [hi, e, e2]
  · have e2 : ¬ 8 - width + i < 8 := by omega
    simp [hi, e2]

theorem testBit_reflect16_core (value j : Nat) :
    ((
      let value := shl (value &&& 0x5555) 1 ||| shr (value &&& 0xaaaa) 1
      let value := shl (value &&& 0x3333) 2 ||| shr (value &&& 0xcccc) 2
      let value := shl (value &&& 0x0f0f) 4 ||| shr (value &&& 0xf0f0) 4
      let value := shl value 8 ||| shr value 8
      value &&& 0xffff) : Nat).testBit j = (decide (j < 16) && value.testBit (15 - j)) := by
  rcases Nat.lt_or_ge j 16 with h | h
  · interval_cases j <;>
      simp [-Nat.testBit_zero, -Nat.testBit_or, testBit_swap, testBit_rot,
        Nat.testBit_to_div_mod (x := 0xffff)]
  · simp only [Nat.testBit_and]
    rw [testBit_of_ge_of_lt (by decide : 0xffff < 2 ^ 16) h]
    simp [Nat.not_lt.mpr h]

theorem testBit_reflect16 (width value i : Nat) (hw1 : 1 ≤ width) (hw : width ≤ 16) :
    (_crcfactory_reflect16 width value 8).testBit i
      = (decide (i < width) && value.testBit (width - 1 - i)) := by
  unfold _crcfactory_reflect16
  rw [testBit_shr _ (by omega : 16 - width < 64)]
  have := testBit_reflect16_core value (16 - width + i)
  simp only at this ⊢
  rw [this]
  by_cases hi : i < width
  · have e : 15 - (16 - width + i) = width - 1 - i := by omega
    have e2 : 16 - width + i < 16 := by omega
    simp [hi, e, e2]
  · have e2 : ¬ 16 - width + i < 16 := by omega
    simp [hi, e2]

theorem testBit_reflect32_core (value j : Nat) :
    ((
      let value := shl (value &&& 0x55555555) 1 ||| shr (value &&& 0xaaaaaaaa) 1
      let value := shl (value &&& 0x33333333) 2 ||| shr (value &&& 0xcccccccc) 2
      let value := shl (value &&& 0x0f0f0f0f) 4 ||| shr (value &&& 0xf0f0f0f0) 4
      let value := shl (value &&& 0x00ff00ff) 8 ||| shr (value &&& 0xff00ff00) 8
      let value := shl value 16 ||| shr value 16
      value &&& 0xffffffff) : Nat).testBit j = (decide (j < 32) && value.testBit (31 - j)) := by
  rcases Nat.lt_or_ge j 32 with h | h
  · interval_cases j <;>
      simp [-Nat.testBit_zero, -Nat.testBit_or, testBit_swap, testBit_rot,
        Nat.testBit_to_div_mod (x := 0xffffffff)]
  · simp only [Nat.testBit_and]
    rw [testBit_of_ge_of_lt (by decide : 0xffffffff < 2 ^ 32) h]
    simp [Nat.not_lt.mpr h]

theorem testBit_reflect32 (width value i : Nat) (hw1 : 1 ≤ width) (hw : width ≤ 32) :
    (_crcfactory_reflect32 width value 8 16).testBit i
      = (decide (i < width) && value.testBit (width - 1 - i)) := by
  unfold _crcfactory_reflect32
  rw [testBit_shr _ (by omega : 32 - width < 64)]
  have := testBit_reflect32_core value (32 - width + i)
  simp only at this ⊢
  rw [this]
  by_cases hi : i < width
  · have e : 31 - (32 - width + i) = width - 1 - i := by omega
    have e2 : 32 - width + i < 32 := by omega
    simp [hi, e, e2]
  · have e2 : ¬ 32 - width + i < 32 := by omega
    simp [hi, e2]

theorem testBit_reflect64_core (value j : Nat) :
    ((
      let value := shl (value &&& 0x5555555555555555) 1 ||| shr (value &&& 0xaaaaaaaaaaaaaaaa) 1
      let value := shl (value &&& 0x3333333333333333) 2 ||| shr (value &&& 0xcccccccccccccccc) 2
      let value := shl (value &&& 0x0f0f0f0f0f0f0f0f) 4 ||| shr (value &&& 0xf0f0f0f0f0f0f0f0) 4
      let value := shl (value &&& 0x00ff00ff00ff00ff) 8 ||| shr (value &&& 0xff00ff00ff00ff00) 8
      let value := shl (value &&& 0x0000ffff0000ffff) 16 ||| shr (value &&& 0xffff0000ffff0000) 16
      let value := shl value 32 ||| shr value 32
      value &&& 0xffffffffffffffff) : Nat).testBit j = (decide (j < 64) && value.testBit (63 - j)) := by
  rcases Nat.lt_or_ge j 64 with h | h
  · interval_cases j <;>
      simp [-Nat.testBit_zero, -Nat.testBit_or, testBit_swap, testBit_rot,
        Nat.testBit_to_div_mod (x := 0xffffffffffffffff)]
  · simp only [Nat.testBit_and]
    rw [testBit_of_ge_of_lt (by decide : 0xffffffffffffffff < 2 ^ 64) h]
    simp [Nat.not_lt.mpr h]

theorem testBit_reflect64 (width value i : Nat) (hw1 : 1 ≤ width) (hw : width ≤ 64) :
    (_crcfactory_reflect64 width value 8 16 32).testBit i
      = (decide (i < width) && value.testBit (width - 1 - i)) := by
  unfold _crcfactory_reflect64
  rw [testBit_shr _ (by omega : 64 - width < 64)]
  have := testBit_reflect64_core value (64 - width + i)
  simp only at this ⊢
  rw [this]
  by_cases hi : i < width
  · have e : 63 - (64 - width + i) = width - 1 - i := by omega
    have e2 : 64 - width + i < 64 := by omega
    simp [hi, e, e2]
  · have e2 : ¬ 64 - width + i < 64 := by omega
    simp [hi, e2]

/-- Bit `i` of `crcfactory_reflect width value` is bit `width - 1 - i` of `value`
when `i < width`, and is clear otherwise. -/
theorem testBit_reflect (width value i : Nat) (hw1 : 1 ≤ width) (hw : width ≤ 64) :
    (crcfactory_reflect width value).testBit i
      = (decide (i < width) && value.testBit (width - 1 - i)) := by
  unfold crcfactory_reflect
  split_ifs with h1 h2 h3
  · exact testBit_reflect64 width value i (by omega) hw
  · exact testBit_reflect32 width value i (by omega) (by omega)
  · exact testBit_reflect16 width value i (by omega) (by omega)
  · exact testBit_reflect8 width value i hw1 (by omega)

theorem reflect_lt (width value : Nat) (hw1 : 1 ≤ width) (hw : width ≤ 64) :
    crcfactory_reflect width value < 2 ^ width := by
  apply Nat.lt_pow_two_of_testBit
  intro i hi
  rw [testBit_reflect width value i hw1 hw]
  simp [Nat.not_lt.mpr hi]

theorem reflect_reflect (width v : Nat) (hw1 : 1 ≤ width) (hw : width ≤ 64) :
    crcfactory_reflect width (crcfactory_reflect width v) = v % 2 ^ width := by
  apply Nat.eq_of_testBit_eq
  intro i
  rw [testBit_reflect _ _ _ hw1 hw, Nat.testBit_mod_two_pow]
  by_cases hi : i < width
  · rw [testBit_reflect _ _ _ hw1 hw]
    have e : width - 1 - (width - 1 - i) = i := by omega
    have e2 : width - 1 - i < width := by omega
    simp [hi, e, e2]
  · simp [hi]

/-! ## Claims on the reflector and on masking -/

/-- C4: for `1 ≤ width ≤ 64` and any value `v`, bit `i` of `crcfactory_reflect width v` is
bit `width - 1 - i` of `v` for every `i < width`, and every bit `i ≥ width` of the result
is clear, whatever the bits of `v` at positions `≥ width` are. -/
theorem reflect_reverses_low_bits (width v : Nat) (hw1 : 1 ≤ width) (hw : width ≤ 64) :
    (∀ i, i < width → (crcfactory_reflect width v).testBit i = v.testBit (width - 1 - i)) ∧
    (∀ i, width ≤ i → (crcfactory_reflect width v).testBit i = false) := by
  constructor
  · intro i hi
    rw [testBit_reflect _ _ _ hw1 hw]
    simp [hi]
  · intro i hi
    rw [testBit_reflect _ _ _ hw1 hw]
    simp [Nat.not_lt.mpr hi]

theorem reflect_reverses_low_bits_witness :
    (1 ≤ 11 ∧ 11 ≤ 64) ∧
    ((∀ i, i < 11 → (crcfactory_reflect 11 0xF0F5).testBit i = (0xF0F5).testBit (11 - 1 - i)) ∧
     (∀ i, 11 ≤ i → (crcfactory_reflect 11 0xF0F5).testBit i = false)) :=
  ⟨by decide, reflect_reverses_low_bits 11 0xF0F5 (by decide) (by decide)⟩

/-- C9: for `1 ≤ width ≤ 64` and a 64-bit value `v`, reflecting twice gives
`v AND (2 ^ width - 1)`, which for `width = 64` is `v` itself. -/
theorem reflect_involution (width v : Nat) (hw1 : 1 ≤ width) (hw : width ≤ 64)
    (hv : v < 2 ^ 64) :
    crcfactory_reflect width (crcfactory_reflect width v) = v &&& (2 ^ width - 1) ∧
    (width = 64 → crcfactory_reflect width (crcfactory_reflect width v) = v) := by
  constructor
  · rw [reflect_reflect width v hw1 hw, Nat.and_pow_two_sub_one_eq_mod]
  · intro h64
    subst h64
    rw [reflect_reflect 64 v hw1 hw, Nat.mod_eq_of_lt hv]

theorem reflect_involution_witness :
    (1 ≤ 64 ∧ 64 ≤ 64 ∧ 0x8000000000000001 < 2 ^ 64) ∧
    (crcfactory_reflect 64 (crcfactory_reflect 64 0x8000000000000001)
        = 0x8000000000000001 &&& (2 ^ 64 - 1) ∧
     (64 = 64 → crcfactory_reflect 64 (crcfactory_reflect 64 0x8000000000000001)
        = 0x8000000000000001)) :=
  ⟨by decide, reflect_involution 64 0x8000000000000001 (by decide) (by decide) (by decide)⟩

theorem result_wide (width xorout state : Nat) (hw8 : 8 ≤ width) (hw : width < 64) :
    crcfactory_result width false xorout state = (state % 2 ^ width) ^^^ xorout := by
  unfold crcfactory_result
  have h8 : ¬ width < 8 := by omega
  simp only [Bool.false_eq_true, if_false, h8]
  rcases Nat.eq_or_lt_of_le hw8 with h | h
  · subst h
    simp only [_crcfactory_mask, Bool.not_false, Bool.true_and, Nat.le_refl, decide_True,
      if_true, and_ff]
  · rw [mask_general width false state (by simp; omega) (by omega) hw]

/-- At `width = 64` the non-reflected finalizer returns `xorout`, whatever the state. -/
theorem result_64 (xorout state : Nat) : crcfactory_result 64 false xorout state = xorout := by
  unfold crcfactory_result
  have h8 : ¬ 64 < 8 := by decide
  simp only [Bool.false_eq_true, if_false, h8, mask_64, Nat.zero_xor]

/-- C10: the code does not keep the value at `width = 64`: `_crcfactory_mask 64 reflected v`
is `0` for every `v` and both values of `reflected`, in particular
`_crcfactory_mask 64 false 0xFFFFFFFFFFFFFFFF = 0`, and the non-reflected finalizer at
`width = 64` returns `xorout` instead of `state XOR xorout`. -/
theorem mask_collapses_at_width_64 (reflected : Bool) (v xorout state : Nat) :
    _crcfactory_mask 64 reflected v = 0 ∧
    _crcfactory_mask 64 false 0xFFFFFFFFFFFFFFFF = 0 ∧
    _crcfactory_mask 64 false 0xFFFFFFFFFFFFFFFF ≠ 0xFFFFFFFFFFFFFFFF ∧
    crcfactory_result 64 false xorout state = xorout :=
  ⟨mask_64 reflected v, by decide, by decide, result_64 xorout state⟩

/-! ## XOR-linearity of the bit loops -/

theorem shr_xor (a b k : Nat) : shr (a ^^^ b) k = shr a k ^^^ shr b k := by
  apply Nat.eq_of_testBit_eq
  intro i
  simp [shr]

theorem shl_xor (a b k : Nat) : shl (a ^^^ b) k = shl a k ^^^ shl b k := by
  apply Nat.eq_of_testBit_eq
  intro i
  simp only [shl, Nat.testBit_mod_two_pow, Nat.testBit_shiftLeft, Nat.testBit_xor]
  cases decide (i < 64) <;> cases decide (i ≥ k % 64) <;> simp

theorem xor_mod_two_pow (a b n : Nat) : (a ^^^ b) % 2 ^ n = (a % 2 ^ n) ^^^ (b % 2 ^ n) := by
  apply Nat.eq_of_testBit_eq
  intro i
  simp only [Nat.testBit_mod_two_pow, Nat.testBit_xor]
  cases decide (i < n) <;> simp

theorem testBit_eq_of_mod_eq {a b n : Nat} (h : a % 2 ^ n = b % 2 ^ n) {i : Nat} (hi : i < n) :
    a.testBit i = b.testBit i := by
  have := congrArg (fun x => x.testBit i) h
  simpa [Nat.testBit_mod_two_pow, hi] using this

theorem mod_eq_of_testBit_eq {a b n : Nat} (h : ∀ i, i < n → a.testBit i = b.testBit i) :
    a % 2 ^ n = b % 2 ^ n := by
  apply Nat.eq_of_testBit_eq
  intro i
  simp only [Nat.testBit_mod_two_pow]
  by_cases hi : i < n
  · simp [hi, h i hi]
  · simp [hi]

theorem and_two_pow_eq_zero {a n : Nat} (h : a.testBit n = false) : a &&& 2 ^ n = 0 := by
  apply Nat.eq_of_testBit_eq
  intro i
  rw [Nat.testBit_and, Nat.testBit_two_pow, Nat.zero_testBit]
  by_cases hi : n = i
  · subst hi
    simp [h]
  · simp [hi]

/-- The reflected bit step is additive in a summand whose bit 0 is clear. -/
theorem step_reflected_xor (p a b : Nat) (ha : a &&& 1 = 0) :
    step_reflected p (a ^^^ b) = shr a 1 ^^^ step_reflected p b := by
  unfold step_reflected
  rw [Nat.and_xor_distrib_right, ha, Nat.zero_xor, shr_xor]
  split_ifs
  · rw [Nat.xor_assoc]
  · rfl

theorem loop_reflected_xor (p : Nat) :
    ∀ (k c b : Nat), loop (step_reflected p) k ((c <<< k) ^^^ b)
      = c ^^^ loop (step_reflected p) k b := by
  intro k
  induction k with
  | zero => intro c b; simp [loop]
  | succ k ih =>
    intro c b
    have h0 : (c <<< (k + 1)) &&& 1 = 0 := by
      have : (1 : Nat) = 2 ^ 0 := rfl
      rw [this]
      apply and_two_pow_eq_zero
      simp
    have h1 : shr (c <<< (k + 1)) 1 = c <<< k := by
      rw [shr_of_lt _ (by decide), Nat.shiftLeft_add, Nat.shiftLeft_shiftRight]
    simp only [loop]
    rw [step_reflected_xor p _ _ h0, h1, ih]

theorem split_low_byte (s d : Nat) (hd : d < 256) :
    s ^^^ d = ((s >>> 8) <<< 8) ^^^ ((d ^^^ s) &&& 0xff) := by
  apply Nat.eq_of_testBit_eq
  intro i
  simp only [Nat.testBit_xor, Nat.testBit_shiftLeft, Nat.testBit_shiftRight, Nat.testBit_and,
    Nat.testBit_to_div_mod (x := 0xff)]
  by_cases hi : i < 8
  · have h8 : ¬ i ≥ 8 := by omega
    interval_cases i <;> simp [Bool.xor_comm]
  · have h8 : i ≥ 8 := by omega
    have e : 8 + (i - 8) = i := by omega
    have hdi : d.testBit i = false := testBit_of_ge_of_lt (n := 8) hd h8
    have hf : (0xff : Nat) / 2 ^ i % 2 = 0 := by
      rw [Nat.div_eq_of_lt]
      exact Nat.lt_of_lt_of_le (by decide : 0xff < 2 ^ 8) (Nat.pow_le_pow_right (by decide) h8)
    simp [h8, e, hdi, hf]

/-- The reflected byte update is one update from state zero on the byte
`(data XOR state) AND 0xff`, XORed with `state >> 8`. -/
theorem update_reflected_split (width p s d : Nat) (hd : d < 256) :
    crcfactory_update width true p s d
      = crcfactory_update width true p 0 ((d ^^^ s) &&& 0xff) ^^^ shr s 8 := by
  simp only [crcfactory_update, if_true, Nat.zero_xor]
  rw [split_low_byte s d hd, loop_reflected_xor, shr_of_lt _ (by decide), Nat.xor_comm]

/-- The non-reflected bit step is additive in a summand whose bit `width - 1` is clear. -/
theorem step_wide_xor (width p a b : Nat) (hw1 : 1 ≤ width) (hw : width ≤ 64)
    (ha : a.testBit (width - 1) = false) :
    step_wide width p (a ^^^ b) = shl a 1 ^^^ step_wide width p b := by
  unfold step_wide
  rw [shl_one_of_lt (by omega : width - 1 < 64), Nat.and_xor_distrib_right,
    and_two_pow_eq_zero ha, Nat.zero_xor, shl_xor]
  split_ifs
  · rw [Nat.xor_assoc]
  · rfl

theorem shl_shl_one (a k : Nat) (hk : k + 1 < 64) : shl (shl a 1) k = shl a (k + 1) := by
  apply Nat.eq_of_testBit_eq
  intro i
  rw [testBit_shl _ (by omega : k < 64), testBit_shl _ (by decide : 1 < 64), testBit_shl _ hk]
  by_cases h1 : i < 64 <;> by_cases h2 : k + 1 ≤ i
  · have e : i - k - 1 = i - (k + 1) := by omega
    have h3 : k ≤ i := by omega
    have h4 : i - k < 64 := by omega
    have h5 : 1 ≤ i - k := by omega
    simp [h1, h2, h3, h4, h5, e]
  · by_cases h3 : k ≤ i
    · have h5 : ¬ 1 ≤ i - k := by omega
      simp [h1, h2, h3, h5]
    · simp [h1, h2, h3]
  · simp [h1]
  · simp [h1]

theorem loop_wide_xor (width p : Nat) (hw1 : 1 ≤ width) (hw : width ≤ 64) :
    ∀ (k a b : Nat), k + 1 < 64 →
      (∀ i, width - (k + 1) ≤ i → i < width → a.testBit i = false) →
      loop (step_wide width p) (k + 1) (a ^^^ b)
        = shl a (k + 1) ^^^ loop (step_wide width p) (k + 1) b := by
  intro k
  induction k with
  | zero =>
    intro a b _ ha
    simp only [loop]
    exact step_wide_xor width p a b hw1 hw (ha _ (by omega) (by omega))
  | succ k ih =>
    intro a b hk ha
    rw [loop, step_wide_xor width p a b hw1 hw (ha _ (by omega) (by omega)),
      ih (shl a 1) _ (by omega), shl_shl_one a (k + 1) hk]
    · rfl
    · intro i h1 h2
      rw [testBit_shl _ (by decide : 1 < 64)]
      by_cases h3 : 1 ≤ i
      · rw [ha (i - 1) (by omega) (by omega)]
        simp
      · simp [h3]

/-- The table index of the non-reflected engine for `width ≥ 8`. -/
theorem testBit_index_wide (width s d i : Nat) (hw8 : 8 ≤ width) (hw : width ≤ 64) :
    ((d ^^^ shr s (width - 8)) &&& 0xff).testBit i
      = (decide (i < 8) && (d.testBit i ^^ s.testBit (width - 8 + i))) := by
  rw [and_ff, Nat.testBit_mod_two_pow, Nat.testBit_xor, testBit_shr _ (by omega)]

/-- The non-reflected byte update for `width ≥ 8`, modulo `2 ^ width`, is one update
from state zero on the table index, XORed with `state << 8`. -/
theorem update_wide_mod (width p s d : Nat) (hw8 : 8 ≤ width) (hw : width ≤ 64) :
    crcfactory_update width false p s d % 2 ^ width
      = (crcfactory_update width false p 0 ((d ^^^ shr s (width - 8)) &&& 0xff)
          ^^^ shl s 8) % 2 ^ width := by
  have hlt : ¬ width < 8 := by omega
  simp only [crcfactory_update, Bool.false_eq_true, if_false, hlt, Nat.zero_xor]
  generalize hJ : (d ^^^ shr s (width - 8)) &&& 0xff = J
  have hJb : ∀ i, J.testBit i
      = (decide (i < 8) && (d.testBit i ^^ s.testBit (width - 8 + i))) := by
    intro i
    rw [← hJ]
    exact testBit_index_wide width s d i hw8 hw
  have hsplit : s ^^^ shl d (width - 8)
      = (s ^^^ shl d (width - 8) ^^^ shl J (width - 8)) ^^^ shl J (width - 8) := by
    rw [Nat.xor_cancel_right]
  have hclear : ∀ i, width - (7 + 1) ≤ i → i < width →
      (s ^^^ shl d (width - 8) ^^^ shl J (width - 8)).testBit i = false := by
    intro i h1 h2
    rw [Nat.testBit_xor, Nat.testBit_xor, testBit_shl _ (by omega), testBit_shl _ (by omega), hJb]
    have e : width - 8 + (i - (width - 8)) = i := by omega
    have h3 : i < 64 := by omega
    have h4 : width - 8 ≤ i := by omega
    have h5 : i - (width - 8) < 8 := by omega
    simp only [h3, h4, h5, e, decide_True, Bool.true_and]
    cases s.testBit i <;> cases d.testBit (i - (width - 8)) <;> rfl
  rw [hsplit, loop_wide_xor width p (by omega) hw 7 _ _ (by decide) hclear]
  apply mod_eq_of_testBit_eq
  intro i hi
  rw [Nat.testBit_xor, Nat.testBit_xor, Bool.xor_comm]
  congr 1
  rw [testBit_shl _ (by decide), testBit_shl _ (by decide), Nat.testBit_xor, Nat.testBit_xor,
    testBit_shl _ (by omega), testBit_shl _ (by omega)]
  by_cases h8 : 8 ≤ i
  · have h6 : ¬ width - 8 ≤ i - 8 := by omega
    simp [h6]
  · simp [h8]

/-! ## Bounds on the engines' outputs -/

theorem loop_reflected_clear (p width : Nat) (hp : p < 2 ^ width) :
    ∀ (k x : Nat), (∀ i, width ≤ i → x.testBit (i + k) = false) →
      ∀ i, width ≤ i → (loop (step_reflected p) k x).testBit i = false := by
  intro k
  induction k with
  | zero => intro x hx i hi; exact hx i hi
  | succ k ih =>
    intro x hx i hi
    simp only [loop]
    apply ih _ _ i hi
    intro j hj
    have hpj : p.testBit (j + k) = false := testBit_of_ge_of_lt hp (by omega)
    have hxj : x.testBit (1 + (j + k)) = false := by
      have := hx j hj
      rwa [show j + (k + 1) = 1 + (j + k) by omega] at this
    unfold step_reflected
    split_ifs
    · rw [Nat.testBit_xor, testBit_shr _ (by decide), hxj, hpj]
      rfl
    · rw [testBit_shr _ (by decide), hxj]

/-- In reflected mode one update from state zero stays below `2 ^ width` when the
normalized polynomial does. -/
theorem update_reflected_zero_lt (width p j : Nat) (hp : p < 2 ^ width) (hj : j < 256) :
    crcfactory_update width true p 0 j < 2 ^ width := by
  apply Nat.lt_pow_two_of_testBit
  intro i hi
  simp only [crcfactory_update, if_true, Nat.zero_xor]
  apply loop_reflected_clear p width hp 8 j _ i hi
  intro i _
  exact testBit_of_ge_of_lt (n := 8) hj (by omega)

theorem step_wide_lt (width p x : Nat) (hp : p < 2 ^ 64) : step_wide width p x < 2 ^ 64 := by
  unfold step_wide
  split_ifs
  · exact Nat.xor_lt_two_pow (shl_lt _ _) hp
  · exact shl_lt _ _

theorem loop_succ_lt (f : Nat → Nat) (hf : ∀ x, f x < 2 ^ 64) :
    ∀ (k x : Nat), loop f (k + 1) x < 2 ^ 64 := by
  intro k
  induction k with
  | zero => intro x; exact hf x
  | succ k ih => intro x; rw [loop]; exact ih (f x)

theorem update_wide_lt (width p s d : Nat) (hw8 : 8 ≤ width) (hp : p < 2 ^ 64) :
    crcfactory_update width false p s d < 2 ^ 64 := by
  have hlt : ¬ width < 8 := by omega
  simp only [crcfactory_update, Bool.false_eq_true, if_false, hlt]
  exact loop_succ_lt _ (fun x => step_wide_lt width p x hp) 7 _

/-! ## Table entries -/

theorem table_init_length (width : Nat) (reflected : Bool) (poly : Nat) :
    (crcfactory_table_init width reflected poly).length = 256 := by
  simp [crcfactory_table_init]

theorem table_init_get (width : Nat) (reflected : Bool) (poly j : Nat) (hj : j < 256) :
    (crcfactory_table_init width reflected poly)[j]?
      = some (_crcfactory_mask width reflected
          (crcfactory_update width reflected (crcfactory_setup_poly width reflected poly) 0 j)) := by
  simp [crcfactory_table_init, List.getElem?_map, List.getElem?_range hj]

theorem table_init_get_none (width : Nat) (reflected : Bool) (poly j : Nat) (hj : 256 ≤ j) :
    (crcfactory_table_init width reflected poly)[j]? = none := by
  rw [List.getElem?_eq_none_iff, table_init_length]
  exact hj

theorem and_ff_lt (x : Nat) : x &&& 0xff < 256 := by
  rw [and_ff]
  exact Nat.mod_lt _ (by decide)

/-! ## One byte: table-driven update against bitwise update -/

theorem table_update_reflected (width poly s d : Nat) (hw1 : 1 ≤ width) (hw : width < 64)
    (hd : d < 256) :
    crcfactory_table_update width true (crcfactory_table_init width true poly) s d
      = some (crcfactory_update width true (crcfactory_setup_poly width true poly) s d) := by
  have hp : crcfactory_setup_poly width true poly < 2 ^ width := by
    simp only [crcfactory_setup_poly, if_true]
    exact reflect_lt width poly hw1 (by omega)
  have hu := update_reflected_zero_lt width _ _ hp (and_ff_lt (d ^^^ s))
  simp only [crcfactory_table_update, if_true]
  rw [table_init_get _ _ _ _ (and_ff_lt (d ^^^ s)), Option.map_some',
    mask_general width true _ (by simp) hw1 hw, Nat.mod_eq_of_lt hu,
    update_reflected_split width _ s d hd]

theorem update_wide_congr (width p t s d : Nat) (hw8 : 8 ≤ width) (hw : width ≤ 64)
    (h : t % 2 ^ width = s % 2 ^ width) :
    crcfactory_update width false p t d % 2 ^ width
      = crcfactory_update width false p s d % 2 ^ width := by
  rw [update_wide_mod width p t d hw8 hw, update_wide_mod width p s d hw8 hw]
  have hJ : (d ^^^ shr t (width - 8)) &&& 0xff = (d ^^^ shr s (width - 8)) &&& 0xff := by
    apply Nat.eq_of_testBit_eq
    intro i
    rw [testBit_index_wide _ _ _ _ hw8 hw, testBit_index_wide _ _ _ _ hw8 hw]
    by_cases hi : i < 8
    · rw [testBit_eq_of_mod_eq h (by omega : width - 8 + i < width)]
    · simp [hi]
  rw [hJ, xor_mod_two_pow, xor_mod_two_pow _ (shl s 8)]
  congr 1
  apply mod_eq_of_testBit_eq
  intro i hi
  rw [testBit_shl _ (by decide), testBit_shl _ (by decide)]
  by_cases h8 : 8 ≤ i
  · rw [testBit_eq_of_mod_eq h (by omega : i - 8 < width)]
  · simp [h8]

theorem table_update_wide (width poly t s d : Nat) (hw8 : 8 < width) (hw : width < 64)
    (hp : poly < 2 ^ 64) (h : states_agree width false t s) :
    ∃ t', crcfactory_table_update width false (crcfactory_table_init width false poly) t d
        = some t' ∧
      states_agree width false t'
        (crcfactory_update width false (crcfactory_setup_poly width false poly) s d) := by
  have hle : ¬ width ≤ 8 := by omega
  have hlt : ¬ width < 8 := by omega
  have hpoly : crcfactory_setup_poly width false poly = poly := by
    simp [crcfactory_setup_poly, hlt]
  simp only [states_agree, Bool.false_eq_true, if_false, hle] at h ⊢
  obtain ⟨_, _, hts⟩ := h
  rw [hpoly]
  have hu := update_wide_lt width poly 0 ((d ^^^ shr t (width - 8)) &&& 0xff) (by omega) hp
  refine ⟨crcfactory_update width false poly 0 ((d ^^^ shr t (width - 8)) &&& 0xff) % 2 ^ width
      ^^^ shl t 8, ?_, ?_, update_wide_lt width poly s d (by omega) hp, ?_⟩
  · simp only [crcfactory_table_update, Bool.false_eq_true, if_false, hle]
    rw [table_init_get _ _ _ _ (and_ff_lt _), Option.map_some', hpoly,
      mask_general width false _ (by simp [hle]) (by omega) hw]
  · exact Nat.xor_lt_two_pow
      (Nat.lt_of_le_of_lt (Nat.mod_le _ _) hu) (shl_lt _ _)
  · rw [← update_wide_congr width poly t s d (by omega) (by omega) hts,
      update_wide_mod width poly t d (by omega) (by omega), xor_mod_two_pow, Nat.mod_mod,
      ← xor_mod_two_pow]

theorem step_sub_byte_eq (p : Nat) : step_sub_byte p = step_wide 8 p := by
  funext x
  have : shl 1 (8 - 1) = 0x80 := by decide
  simp only [step_sub_byte, step_wide, this]

/-- For `width < 8` the non-reflected byte update runs the `width = 8` loop. -/
theorem update_sub_byte_eq (width p s d : Nat) (hw : width ≤ 8) (hd : d < 2 ^ 64) :
    crcfactory_update width false p s d = crcfactory_update 8 false p s d := by
  have e : shl d (8 - 8) = d := by
    simp only [shl, Nat.sub_self, Nat.zero_mod, Nat.shiftLeft_zero]
    exact Nat.mod_eq_of_lt hd
  by_cases h : width < 8
  · simp only [crcfactory_update, Bool.false_eq_true, if_false, h, if_true, step_sub_byte_eq,
      Nat.lt_irrefl, e]
  · have : width = 8 := by omega
    subst this
    rfl

theorem table_update_byte (width poly t s d : Nat) (hw : width ≤ 8)
    (hd : d < 256) (h : states_agree width false t s) :
    ∃ t', crcfactory_table_update width false (crcfactory_table_init width false poly) t d
        = some t' ∧
      states_agree width false t'
        (crcfactory_update width false (crcfactory_setup_poly width false poly) s d) := by
  simp only [states_agree, Bool.false_eq_true, if_false, hw, if_true] at h ⊢
  obtain ⟨ht, hts⟩ := h
  have hd64 : d < 2 ^ 64 := Nat.lt_of_lt_of_le hd (by decide)
  have hidx : d ^^^ t < 256 := Nat.xor_lt_two_pow (n := 8) hd ht
  have hidx64 : d ^^^ t < 2 ^ 64 := Nat.lt_of_lt_of_le hidx (by decide)
  have hJ : (d ^^^ shr s (8 - 8)) &&& 0xff = d ^^^ t := by
    have : shr s (8 - 8) = s := by simp [shr]
    rw [this, and_ff, xor_mod_two_pow, ← hts, Nat.mod_eq_of_lt (by simpa using hd)]
  have hz : shl s 8 % 2 ^ 8 = 0 := by
    apply Nat.eq_of_testBit_eq
    intro i
    rw [Nat.testBit_mod_two_pow, testBit_shl _ (by decide), Nat.zero_testBit]
    by_cases hi : i < 8
    · have : ¬ 8 ≤ i := by omega
      simp [this]
    · simp [hi]
  refine ⟨_crcfactory_mask width false (crcfactory_update width false
      (crcfactory_setup_poly width false poly) 0 (d ^^^ t)), ?_, ?_, ?_⟩
  · simp only [crcfactory_table_update, Bool.false_eq_true, if_false, hw, if_true]
    rw [table_init_get _ _ _ _ hidx]
  · simp only [_crcfactory_mask, Bool.not_false, Bool.true_and, hw, decide_True, if_true]
    exact and_ff_lt _
  · simp only [_crcfactory_mask, Bool.not_false, Bool.true_and, hw, decide_True, if_true]
    rw [and_ff, update_sub_byte_eq width _ 0 _ hw hidx64, update_sub_byte_eq width _ s d hw hd64,
      update_wide_mod 8 _ s d (by decide) (by decide), hJ, xor_mod_two_pow, hz, Nat.xor_zero]

/-- One byte through the table-driven engine keeps pace with one byte through the
bitwise engine, up to `states_agree`, and every table read is in range. -/
theorem table_update_agree (width : Nat) (reflected : Bool) (poly t s d : Nat)
    (hw1 : 1 ≤ width) (hw : width < 64) (hp : poly < 2 ^ 64) (hd : d < 256)
    (h : states_agree width reflected t s) :
    ∃ t', crcfactory_table_update width reflected
        (crcfactory_table_init width reflected poly) t d = some t' ∧
      states_agree width reflected t'
        (crcfactory_update width reflected (crcfactory_setup_poly width reflected poly) s d) := by
  cases reflected with
  | true =>
    have hts : t = s := by simpa [states_agree] using h
    subst hts
    exact ⟨_, table_update_reflected width poly t d hw1 hw hd, by simp [states_agree]⟩
  | false =>
    by_cases h8 : width ≤ 8
    · exact table_update_byte width poly t s d h8 hd h
    · exact table_update_wide width poly t s d (by omega) hw hp h

theorem table_loop_agree (width : Nat) (reflected : Bool) (poly : Nat)
    (hw1 : 1 ≤ width) (hw : width < 64) (hp : poly < 2 ^ 64) :
    ∀ (data : List Nat), (∀ b ∈ data, b < 256) → ∀ (t s : Nat),
      states_agree width reflected t s →
      ∃ t', table_loop width reflected (crcfactory_table_init width reflected poly) data t
          = some t' ∧
        states_agree width reflected t'
          (data.foldl (fun state d => crcfactory_update width reflected
            (crcfactory_setup_poly width reflected poly) state d) s) := by
  intro data
  induction data with
  | nil => intro _ t s h; exact ⟨t, rfl, h⟩
  | cons d ds ih =>
    intro hb t s h
    obtain ⟨t1, h1, h2⟩ := table_update_agree width reflected poly t s d hw1 hw hp
      (hb d (List.mem_cons_self d ds)) h
    obtain ⟨t2, h3, h4⟩ := ih (fun b hb' => hb b (List.mem_cons_of_mem d hb')) t1 _ h2
    refine ⟨t2, ?_, ?_⟩
    · simp only [table_loop, h1, Option.some_bind, h3]
    · simpa only [List.foldl_cons] using h4

/-- The finalizer reads only what `states_agree` fixes. -/
theorem result_agree (width : Nat) (reflected : Bool) (xorout t s : Nat)
    (hw1 : 1 ≤ width) (hw : width ≤ 64) (h : states_agree width reflected t s) :
    crcfactory_result width reflected xorout t = crcfactory_result width reflected xorout s := by
  cases reflected with
  | true =>
    have hts : t = s := by simpa [states_agree] using h
    rw [hts]
  | false =>
    by_cases h8 : width ≤ 8
    · simp only [states_agree, Bool.false_eq_true, if_false, h8, if_true] at h
      obtain ⟨_, hts⟩ := h
      have e : t &&& 0xff = s &&& 0xff := by
        rw [and_ff, and_ff, hts, Nat.mod_mod]
      simp only [crcfactory_result, Bool.false_eq_true, if_false, _crcfactory_mask,
        Bool.not_false, Bool.true_and, h8, decide_True, if_true, e]
    · simp only [states_agree, Bool.false_eq_true, if_false, h8] at h
      obtain ⟨_, _, hts⟩ := h
      have hlt : ¬ width < 8 := by omega
      simp only [crcfactory_result, Bool.false_eq_true, if_false, hlt]
      rcases Nat.lt_or_ge width 64 with h64 | h64
      · rw [mask_general width false t (by simp [h8]) hw1 h64,
          mask_general width false s (by simp [h8]) hw1 h64, hts]
      · have e : width = 64 := by omega
        subst e
        rw [mask_64, mask_64]

theorem setup_state_byte_lt (width iv : Nat) (hw : width ≤ 8) (hiv : iv < 2 ^ width) :
    crcfactory_setup_state width false iv < 256 := by
  simp only [crcfactory_setup_state, Bool.false_eq_true, if_false]
  split_ifs with h
  · rw [shl_of_lt _ (by omega)]
    apply Nat.lt_of_le_of_lt (Nat.mod_le _ _)
    rw [Nat.shiftLeft_eq]
    calc iv * 2 ^ (8 - width) < 2 ^ width * 2 ^ (8 - width) :=
          Nat.mul_lt_mul_of_pos_right hiv (Nat.two_pow_pos _)
      _ = 2 ^ 8 := by rw [← Nat.pow_add]; congr 1; omega
  · have : width = 8 := by omega
    subst this
    exact hiv

theorem states_agree_refl (width : Nat) (reflected : Bool) (s : Nat) (hs : s < 2 ^ 64)
    (hb : reflected = false → width ≤ 8 → s < 256) : states_agree width reflected s s := by
  cases reflected with
  | true => simp [states_agree]
  | false =>
    by_cases h8 : width ≤ 8
    · have := hb rfl h8
      simp only [states_agree, Bool.false_eq_true, if_false, h8, if_true]
      exact ⟨this, (Nat.mod_eq_of_lt this).symm⟩
    · unfold states_agree
      rw [if_neg (by simp), if_neg h8]
      exact ⟨hs, hs, rfl⟩

/-! ## Claims on the table-driven path -/

/-- Below `width = 64` the two paths agree: for `1 ≤ width ≤ 63`, both values of
`reflected`, `poly`, `iv` and `xorout` below `2 ^ width` and every byte sequence `data`,
`crcfactory_table_crc` on the table written by `crcfactory_table_init` reads the table in
range only and returns the value of `crcfactory_crc`. -/
theorem table_crc_eq_crc_below_64 (width : Nat) (reflected : Bool) (poly iv xorout : Nat)
    (data : List Nat) (hw1 : 1 ≤ width) (hw : width < 64) (hpoly : poly < 2 ^ width)
    (hiv : iv < 2 ^ width) (_hxor : xorout < 2 ^ width) (hdata : ∀ b ∈ data, b < 256) :
    crcfactory_table_crc width reflected (crcfactory_table_init width reflected poly)
        iv xorout data
      = some (crcfactory_crc width reflected poly iv xorout data) := by
  have hw64 : width ≤ 64 := by omega
  have h64 : (2 : Nat) ^ width ≤ 2 ^ 64 := Nat.pow_le_pow_right (by decide) hw64
  have hst : crcfactory_setup_state width reflected iv < 2 ^ 64 := by
    cases reflected with
    | true =>
      simp only [crcfactory_setup_state, if_true]
      exact Nat.lt_of_lt_of_le (reflect_lt width iv hw1 hw64) h64
    | false =>
      simp only [crcfactory_setup_state, Bool.false_eq_true, if_false]
      split_ifs
      · exact shl_lt _ _
      · exact Nat.lt_of_lt_of_le hiv h64
  have h0 := states_agree_refl width reflected (crcfactory_setup_state width reflected iv) hst
    (fun hr h8 => by subst hr; exact setup_state_byte_lt width iv h8 hiv)
  obtain ⟨t, h1, h2⟩ := table_loop_agree width reflected poly hw1 hw
    (Nat.lt_of_lt_of_le hpoly h64) data hdata _ _ h0
  simp only [crcfactory_table_crc, crcfactory_crc, h1, Option.map_some']
  rw [result_agree width reflected xorout _ _ hw1 hw64 h2]

/-- C1: the code breaks the claim at `width = 64` in reflected mode.  For CRC-64/XZ
(`poly = 0x42F0E1EBA9EA3693`, `iv = xorout = 0xFFFFFFFFFFFFFFFF`) over the bytes of
`"123456789"` the bitwise path returns `0x995DC9BBDF1939FA`, while every entry of the table
is masked to `0` and the table-driven path returns `0xFFFFFFFFFFFFFFFF`. -/
theorem table_crc_differs_at_width_64 :
    crcfactory_crc 64 true 0x42F0E1EBA9EA3693 0xFFFFFFFFFFFFFFFF 0xFFFFFFFFFFFFFFFF check_input
      = 0x995DC9BBDF1939FA ∧
    (∀ i, i < 256 → (crcfactory_table_init 64 true 0x42F0E1EBA9EA3693)[i]? = some 0) ∧
    crcfactory_table_crc 64 true (crcfactory_table_init 64 true 0x42F0E1EBA9EA3693)
        0xFFFFFFFFFFFFFFFF 0xFFFFFFFFFFFFFFFF check_input
      = some 0xFFFFFFFFFFFFFFFF ∧
    crcfactory_table_crc 64 true (crcfactory_table_init 64 true 0x42F0E1EBA9EA3693)
        0xFFFFFFFFFFFFFFFF 0xFFFFFFFFFFFFFFFF check_input
      ≠ some (crcfactory_crc 64 true 0x42F0E1EBA9EA3693 0xFFFFFFFFFFFFFFFF
          0xFFFFFFFFFFFFFFFF check_input) := by
  refine ⟨by decide, ?_, by decide, by decide⟩
  intro i hi
  rw [table_init_get 64 true _ i hi, mask_64]

/-- C6, as stated, fails: for `width = 16`, `reflected = false`, `poly = 0x1021`, from
state `0` on the single byte `0x01`, the table-driven engine ends in `0x1021` and the
bitwise engine in `0x11021`, which keeps the bit shifted out above bit 15.  And for
`width = 8`, `reflected = false`, from the starting state `0x100` the first table index
`0x01 XOR 0x100` is outside the table, so the table-driven engine has no state at all,
while the bitwise engine ends in `0x10107`. -/
theorem table_state_not_identical :
    table_loop 16 false (crcfactory_table_init 16 false 0x1021) [0x01] 0 = some 0x1021 ∧
    [0x01].foldl (fun state d => crcfactory_update 16 false
      (crcfactory_setup_poly 16 false 0x1021) state d) 0 = 0x11021 ∧
    table_loop 16 false (crcfactory_table_init 16 false 0x1021) [0x01] 0
      ≠ some ([0x01].foldl (fun state d => crcfactory_update 16 false
          (crcfactory_setup_poly 16 false 0x1021) state d) 0) ∧
    table_loop 8 false (crcfactory_table_init 8 false 0x07) [0x01] 0x100 = none ∧
    [0x01].foldl (fun state d => crcfactory_update 8 false
      (crcfactory_setup_poly 8 false 0x07) state d) 0x100 = 0x10107 := by
  decide

/-- C6 amended: for `1 ≤ width ≤ 63`, both values of `reflected`, every 64-bit `poly`,
every 64-bit starting state `s` (a byte in the non-reflected mode for `width ≤ 8`, where
the table index is not reduced) and every byte sequence, folding
`crcfactory_table_update` from `s` reads the table in range only and ends in a state
`t` that is the state `b` of folding `crcfactory_update` from `s` with the normalized
polynomial when `reflected` is true, and that agrees with `b` modulo
`2 ^ max width 8` when `reflected` is false. -/
theorem table_update_refines_update (width : Nat) (reflected : Bool) (poly s : Nat)
    (data : List Nat) (hw1 : 1 ≤ width) (hw : width < 64) (hpoly : poly < 2 ^ 64)
    (hs : s < 2 ^ 64) (hbyte : reflected = false → width ≤ 8 → s < 256)
    (hdata : ∀ b ∈ data, b < 256) :
    ∃ t, table_loop width reflected (crcfactory_table_init width reflected poly) data s
        = some t ∧
      (if reflected then
        t = data.foldl (fun state d => crcfactory_update width reflected
          (crcfactory_setup_poly width reflected poly) state d) s
      else
        t % 2 ^ max width 8 = data.foldl (fun state d => crcfactory_update width reflected
          (crcfactory_setup_poly width reflected poly) state d) s % 2 ^ max width 8) := by
  obtain ⟨t, h1, h2⟩ := table_loop_agree width reflected poly hw1 hw hpoly data hdata s s
    (states_agree_refl width reflected s hs hbyte)
  refine ⟨t, h1, ?_⟩
  cases reflected with
  | true => simpa [states_agree] using h2
  | false =>
    simp only [Bool.false_eq_true, if_false]
    by_cases h8 : width ≤ 8
    · simp only [states_agree, Bool.false_eq_true, if_false, h8, if_true] at h2
      rw [Nat.max_eq_right h8, h2.2, Nat.mod_mod]
    · simp only [states_agree, Bool.false_eq_true, if_false, h8] at h2
      rw [Nat.max_eq_left (by omega)]
      exact h2.2.2

theorem table_update_refines_update_witness :
    (1 ≤ 16 ∧ 16 < 64 ∧ 0x1021 < 2 ^ 64 ∧ 0xFFFF < 2 ^ 64 ∧
      ((false = false → 16 ≤ 8 → 0xFFFF < 256)) ∧ ∀ b ∈ check_input, b < 256) ∧
    ∃ t, table_loop 16 false (crcfactory_table_init 16 false 0x1021) check_input 0xFFFF
        = some t ∧
      (if false = true then
        t = check_input.foldl (fun state d => crcfactory_update 16 false
          (crcfactory_setup_poly 16 false 0x1021) state d) 0xFFFF
      else
        t % 2 ^ max 16 8 = check_input.foldl (fun state d => crcfactory_update 16 false
          (crcfactory_setup_poly 16 false 0x1021) state d) 0xFFFF % 2 ^ max 16 8) :=
  ⟨by decide, table_update_refines_update 16 false 0x1021 0xFFFF check_input (by decide)
    (by decide) (by decide) (by decide) (by decide) (by decide)⟩

/-- C7, as stated, fails in the non-reflected mode for `width < 8`: for `width = 3`,
`poly = 0x3`, entry `1` of the table is `0x60`, the byte-justified form of the finalizer
value `0x3`. -/
theorem table_entry_not_result :
    (crcfactory_table_init 3 false 0x3)[1]? = some 0x60 ∧
    crcfactory_result 3 false 0
      (crcfactory_update 3 false (crcfactory_setup_poly 3 false 0x3) 0 1) = 0x3 ∧
    (crcfactory_table_init 3 false 0x3)[1]? ≠ some (crcfactory_result 3 false 0
      (crcfactory_update 3 false (crcfactory_setup_poly 3 false 0x3) 0 1)) := by
  decide

/-- C7 amended: for `1 ≤ width ≤ 63`, both values of `reflected`, every `poly` and every
byte value `i`, entry `i` of the table is `_crcfactory_mask` of one bitwise update `u`
from state zero on byte `i`; it is `crcfactory_result width reflected 0 u` when
`reflected` is true or `width ≥ 8`, and in the non-reflected mode for `width < 8` it is
the byte `u AND 0xff`, whose right shift by `8 - width` is that finalizer value. -/
theorem table_entry_invariant (width : Nat) (reflected : Bool) (poly i : Nat)
    (hw1 : 1 ≤ width) (hw : width < 64) (hi : i < 256) :
    (crcfactory_table_init width reflected poly)[i]?
      = some (_crcfactory_mask width reflected
          (crcfactory_update width reflected (crcfactory_setup_poly width reflected poly) 0 i)) ∧
    (reflected = true ∨ 8 ≤ width →
      (crcfactory_table_init width reflected poly)[i]?
        = some (crcfactory_result width reflected 0
            (crcfactory_update width reflected
              (crcfactory_setup_poly width reflected poly) 0 i))) ∧
    (reflected = false → width < 8 →
      (crcfactory_table_init width reflected poly)[i]?
        = some (crcfactory_update width reflected
            (crcfactory_setup_poly width reflected poly) 0 i &&& 0xff) ∧
      shr (crcfactory_update width reflected
            (crcfactory_setup_poly width reflected poly) 0 i &&& 0xff) (8 - width)
        = crcfactory_result width reflected 0
            (crcfactory_update width reflected
              (crcfactory_setup_poly width reflected poly) 0 i)) := by
  refine ⟨table_init_get width reflected poly i hi, ?_, ?_⟩
  · intro h
    rw [table_init_get width reflected poly i hi]
    congr 1
    cases reflected with
    | true =>
      have hp : crcfactory_setup_poly width true poly < 2 ^ width := by
        simp only [crcfactory_setup_poly, if_true]
        exact reflect_lt width poly hw1 (by omega)
      have hu := update_reflected_zero_lt width _ i hp hi
      rw [mask_general width true _ (by simp) hw1 hw, Nat.mod_eq_of_lt hu]
      simp [crcfactory_result]
    | false =>
      have h8 : ¬ width < 8 := by
        rcases h with h | h
        · exact absurd h (by simp)
        · omega
      simp [crcfactory_result, h8]
  · intro hr h8
    subst hr
    have h8le : width ≤ 8 := by omega
    rw [table_init_get width false poly i hi]
    constructor
    · simp only [_crcfactory_mask, Bool.not_false, Bool.true_and, h8le, decide_True, if_true]
    · simp [crcfactory_result, h8]

theorem table_entry_invariant_witness :
    (1 ≤ 3 ∧ 3 < 64 ∧ 1 < 256) ∧
    ((crcfactory_table_init 3 false 0x3)[1]?
      = some (_crcfactory_mask 3 false
          (crcfactory_update 3 false (crcfactory_setup_poly 3 false 0x3) 0 1)) ∧
    (false = true ∨ 8 ≤ 3 →
      (crcfactory_table_init 3 false 0x3)[1]?
        = some (crcfactory_result 3 false 0
            (crcfactory_update 3 false (crcfactory_setup_poly 3 false 0x3) 0 1))) ∧
    (false = false → 3 < 8 →
      (crcfactory_table_init 3 false 0x3)[1]?
        = some (crcfactory_update 3 false (crcfactory_setup_poly 3 false 0x3) 0 1 &&& 0xff) ∧
      shr (crcfactory_update 3 false (crcfactory_setup_poly 3 false 0x3) 0 1 &&& 0xff) (8 - 3)
        = crcfactory_result 3 false 0
            (crcfactory_update 3 false (crcfactory_setup_poly 3 false 0x3) 0 1))) :=
  ⟨by decide, table_entry_invariant 3 false 0x3 1 (by decide) (by decide) (by decide)⟩

/-! ## The bitwise engine as polynomial division over GF(2) -/

theorem coeff_gf2_poly (n k : Nat) :
    (gf2_poly n).coeff k = if n.testBit k then 1 else 0 := by
  unfold gf2_poly
  rw [Polynomial.finset_sum_coeff]
  have h : ∀ j, (if n.testBit j then (Polynomial.X : Polynomial (ZMod 2)) ^ j else 0).coeff k
      = if k = j then (if n.testBit k then 1 else 0) else 0 := by
    intro j
    by_cases hj : k = j
    · subst hj
      by_cases hb : n.testBit k <;> simp [hb]
    · by_cases hb : n.testBit j <;> simp [hb, hj, Polynomial.coeff_X_pow]
  simp only [h]
  rw [Finset.sum_ite_eq]
  by_cases hb : n.testBit k
  · have : k ∈ Finset.range n.size :=
      Finset.mem_range.mpr (Nat.lt_size.mpr (Nat.testBit_implies_ge hb))
    simp [hb, this]
  · simp [hb]

theorem gf2_poly_xor (a b : Nat) : gf2_poly (a ^^^ b) = gf2_poly a + gf2_poly b := by
  ext k
  rw [Polynomial.coeff_add, coeff_gf2_poly, coeff_gf2_poly, coeff_gf2_poly, Nat.testBit_xor]
  cases a.testBit k <;> cases b.testBit k <;> simp
  decide

theorem gf2_poly_zero : gf2_poly 0 = 0 := by
  ext k
  rw [coeff_gf2_poly]
  simp

theorem degree_gf2_poly_lt {n w : Nat} (h : n < 2 ^ w) : (gf2_poly n).degree < w := by
  rw [Polynomial.degree_lt_iff_coeff_zero]
  intro m hm
  rw [coeff_gf2_poly, testBit_of_ge_of_lt h hm]
  simp

theorem generator_poly_monic {width poly : Nat} (h : poly < 2 ^ width) :
    (generator_poly width poly).Monic :=
  Polynomial.monic_X_pow_add (degree_gf2_poly_lt h)

theorem degree_generator_poly {width poly : Nat} (h : poly < 2 ^ width) :
    (generator_poly width poly).degree = width := by
  unfold generator_poly
  rw [Polynomial.degree_add_eq_left_of_degree_lt]
  · exact Polynomial.degree_X_pow width
  · rw [Polynomial.degree_X_pow]
    exact degree_gf2_poly_lt h

/-- A register value below `2 ^ width` that is congruent to `A` modulo the generator
is the remainder of `A`. -/
theorem eq_modByMonic_of_dvd {width poly r : Nat} (A : Polynomial (ZMod 2))
    (hp : poly < 2 ^ width) (hr : r < 2 ^ width)
    (h : generator_poly width poly ∣ A - gf2_poly r) :
    gf2_poly r = A %ₘ generator_poly width poly := by
  rw [Polynomial.modByMonic_eq_of_dvd_sub (generator_poly_monic hp) h]
  symm
  rw [Polynomial.modByMonic_eq_self_iff (generator_poly_monic hp), degree_generator_poly hp]
  exact degree_gf2_poly_lt hr

theorem and_two_pow_ne_zero_iff (a n : Nat) : a &&& 2 ^ n ≠ 0 ↔ a.testBit n = true := by
  constructor
  · intro h
    by_contra hb
    exact h (and_two_pow_eq_zero (by simpa using hb))
  · intro hb h0
    have := congrArg (fun x => x.testBit n) h0
    simp [Nat.testBit_two_pow, hb] at this

theorem one_add_one_zmod2 : (1 : ZMod 2) + 1 = 0 := by decide

/-- One pass of the non-reflected bit loop multiplies the register polynomial by `x`
and reduces it by the generator when the top bit was set. -/
theorem gf2_poly_step_wide (width p s : Nat) (hw1 : 1 ≤ width) (hw : width ≤ 64)
    (hp : p < 2 ^ width) :
    gf2_poly (step_wide width p s % 2 ^ width)
      = Polynomial.X * gf2_poly (s % 2 ^ width)
        + (if s.testBit (width - 1) then 1 else 0) * generator_poly width p := by
  have hcond : (s &&& shl 1 (width - 1) ≠ 0) ↔ s.testBit (width - 1) = true := by
    rw [shl_one_of_lt (by omega : width - 1 < 64)]
    exact and_two_pow_ne_zero_iff s (width - 1)
  ext k
  unfold step_wide generator_poly
  by_cases hc : s.testBit (width - 1) = true
  · rw [if_pos (hcond.mpr hc), if_pos hc, one_mul]
    rcases k with _ | j
    · rw [Polynomial.coeff_add, Polynomial.coeff_X_mul_zero, Polynomial.coeff_add,
        Polynomial.coeff_X_pow, coeff_gf2_poly, coeff_gf2_poly, Nat.testBit_mod_two_pow,
        Nat.testBit_xor, testBit_shl _ (by decide)]
      have : ¬ (0 = width) := by omega
      have h0 : 0 < width := by omega
      simp [this, h0]
    · rw [Polynomial.coeff_add, Polynomial.coeff_X_mul, Polynomial.coeff_add,
        Polynomial.coeff_X_pow, coeff_gf2_poly, coeff_gf2_poly, coeff_gf2_poly,
        Nat.testBit_mod_two_pow, Nat.testBit_mod_two_pow,
        Nat.testBit_xor, testBit_shl _ (by decide)]
      rcases Nat.lt_trichotomy (j + 1) width with h | h | h
      · have h1 : j < width := by omega
        have h2 : j + 1 < 64 := by omega
        have h3 : ¬ (j + 1 = width) := by omega
        simp only [h, h1, h2, h3, decide_True, Bool.true_and, Nat.add_sub_cancel, if_false,
          Nat.le_add_left, zero_add]
        cases s.testBit j <;> cases p.testBit (j + 1) <;> simp [one_add_one_zmod2]
      · subst h
        have hc1 : s.testBit j = true := by simpa using hc
        have hpj : p.testBit (j + 1) = false := testBit_of_ge_of_lt hp (Nat.le_refl _)
        simp only [Nat.lt_irrefl, decide_False, Bool.false_and, Bool.false_eq_true, if_false,
          Nat.lt_succ_self, decide_True, Bool.true_and, hc1, if_true, hpj, add_zero]
        exact one_add_one_zmod2.symm
      · have h1 : ¬ j < width := by omega
        have h2 : ¬ (j + 1 < width) := by omega
        have h3 : ¬ (j + 1 = width) := by omega
        have hpj : p.testBit (j + 1) = false := testBit_of_ge_of_lt hp (by omega)
        simp [h1, h2, h3, hpj]
  · rw [if_neg (fun h => hc (hcond.mp h)), if_neg hc, zero_mul, add_zero]
    rcases k with _ | j
    · rw [Polynomial.coeff_X_mul_zero, coeff_gf2_poly, Nat.testBit_mod_two_pow,
        testBit_shl _ (by decide)]
      simp
    · rw [Polynomial.coeff_X_mul, coeff_gf2_poly, coeff_gf2_poly,
        Nat.testBit_mod_two_pow, Nat.testBit_mod_two_pow, testBit_shl _ (by decide)]
      rcases Nat.lt_trichotomy (j + 1) width with h | h | h
      · have h1 : j < width := by omega
        have h2 : j + 1 < 64 := by omega
        simp [h, h1, h2]
      · subst h
        have hc1 : s.testBit j = false := by simpa using hc
        simp [hc1]
      · have h1 : ¬ j < width := by omega
        have h2 : ¬ (j + 1 < width) := by omega
        simp [h1, h2]

theorem dvd_loop_wide (width p : Nat) (hw1 : 1 ≤ width) (hw : width ≤ 64)
    (hp : p < 2 ^ width) :
    ∀ (k x : Nat) (A : Polynomial (ZMod 2)),
      generator_poly width p ∣ A - gf2_poly (x % 2 ^ width) →
      generator_poly width p ∣
        A * Polynomial.X ^ k - gf2_poly (loop (step_wide width p) k x % 2 ^ width) := by
  intro k
  induction k with
  | zero => intro x A h; simpa [loop] using h
  | succ k ih =>
    intro x A h
    have hstep : generator_poly width p ∣
        A * Polynomial.X - gf2_poly (step_wide width p x % 2 ^ width) := by
      rw [gf2_poly_step_wide width p x hw1 hw hp]
      have e : A * Polynomial.X - (Polynomial.X * gf2_poly (x % 2 ^ width)
            + (if x.testBit (width - 1) then 1 else 0) * generator_poly width p)
          = Polynomial.X * (A - gf2_poly (x % 2 ^ width))
            - (if x.testBit (width - 1) then 1 else 0) * generator_poly width p := by ring
      rw [e]
      exact dvd_sub (Dvd.dvd.mul_left h _) (dvd_mul_left _ _)
    have := ih (step_wide width p x) (A * Polynomial.X) hstep
    rw [loop, pow_succ']
    rwa [mul_assoc] at this

/-- XORing a data byte into the top byte of the register adds `D(x) * x ^ (width - 8)`. -/
theorem gf2_poly_xor_byte (width s d : Nat) (hw8 : 8 ≤ width) (hw : width ≤ 64)
    (hd : d < 256) :
    gf2_poly ((s ^^^ shl d (width - 8)) % 2 ^ width)
      = gf2_poly (s % 2 ^ width) + gf2_poly d * Polynomial.X ^ (width - 8) := by
  rw [xor_mod_two_pow, gf2_poly_xor]
  congr 1
  ext k
  rw [Polynomial.coeff_mul_X_pow', coeff_gf2_poly, coeff_gf2_poly, Nat.testBit_mod_two_pow,
    testBit_shl _ (by omega)]
  by_cases h1 : width - 8 ≤ k
  · by_cases h2 : k < width
    · have h3 : k < 64 := by omega
      simp [h1, h2, h3]
    · have hdk : d.testBit (k - (width - 8)) = false :=
        testBit_of_ge_of_lt (n := 8) hd (by omega)
      simp [h1, h2, hdk]
  · simp [h1]

/-- One byte through the non-reflected engine for `width ≥ 8`, read modulo the
generator: the message grows by the byte. -/
theorem dvd_update_wide (width p s d : Nat) (A : Polynomial (ZMod 2)) (hw8 : 8 ≤ width)
    (hw : width ≤ 64) (hp : p < 2 ^ width) (hd : d < 256)
    (h : generator_poly width p ∣ A - gf2_poly (s % 2 ^ width)) :
    generator_poly width p ∣
      (A * Polynomial.X ^ 8 + gf2_poly d * Polynomial.X ^ width)
        - gf2_poly (crcfactory_update width false p s d % 2 ^ width) := by
  have hlt : ¬ width < 8 := by omega
  simp only [crcfactory_update, Bool.false_eq_true, if_false, hlt]
  have h0 : generator_poly width p ∣
      (A + gf2_poly d * Polynomial.X ^ (width - 8))
        - gf2_poly ((s ^^^ shl d (width - 8)) % 2 ^ width) := by
    rw [gf2_poly_xor_byte width s d hw8 hw hd]
    have e : A + gf2_poly d * Polynomial.X ^ (width - 8)
        - (gf2_poly (s % 2 ^ width) + gf2_poly d * Polynomial.X ^ (width - 8))
        = A - gf2_poly (s % 2 ^ width) := by ring
    rw [e]
    exact h
  have := dvd_loop_wide width p (by omega) hw hp 8 _ _ h0
  have e : (A + gf2_poly d * Polynomial.X ^ (width - 8)) * Polynomial.X ^ 8
      = A * Polynomial.X ^ 8 + gf2_poly d * Polynomial.X ^ width := by
    have : width = (width - 8) + 8 := by omega
    rw [add_mul, mul_assoc, ← pow_add, ← this]
  rwa [e] at this

theorem message_poly_fold (width p : Nat) (hw8 : 8 ≤ width) (hw : width ≤ 64)
    (hp : p < 2 ^ width) :
    ∀ (data : List Nat), (∀ b ∈ data, b < 256) → ∀ (s : Nat) (A : Polynomial (ZMod 2)),
      generator_poly width p ∣ A * Polynomial.X ^ width - gf2_poly (s % 2 ^ width) →
      generator_poly width p ∣
        (A * Polynomial.X ^ (8 * data.length) + message_poly data) * Polynomial.X ^ width
          - gf2_poly (data.foldl (fun state d => crcfactory_update width false p state d) s
              % 2 ^ width) := by
  intro data
  induction data with
  | nil => intro _ s A h; simpa [message_poly] using h
  | cons d ds ih =>
    intro hb s A h
    have h1 := dvd_update_wide width p s d _ hw8 hw hp (hb d (List.mem_cons_self d ds)) h
    have e1 : A * Polynomial.X ^ width * Polynomial.X ^ 8 + gf2_poly d * Polynomial.X ^ width
        = (A * Polynomial.X ^ 8 + gf2_poly d) * Polynomial.X ^ width := by ring
    rw [e1] at h1
    have h2 := ih (fun b hb' => hb b (List.mem_cons_of_mem d hb')) _ _ h1
    have e2 : (A * Polynomial.X ^ 8 + gf2_poly d) * Polynomial.X ^ (8 * ds.length)
          + message_poly ds
        = A * Polynomial.X ^ (8 * (d :: ds).length) + message_poly (d :: ds) := by
      simp only [message_poly, List.length_cons]
      ring
    rw [e2] at h2
    simpa only [List.foldl_cons] using h2

theorem foldl_update_wide_lt (width p : Nat) (hw8 : 8 ≤ width) (hp : p < 2 ^ 64) :
    ∀ (data : List Nat) (s : Nat), s < 2 ^ 64 →
      data.foldl (fun state d => crcfactory_update width false p state d) s < 2 ^ 64 := by
  intro data
  induction data with
  | nil => intro s hs; exact hs
  | cons d ds ih =>
    intro s _
    exact ih _ (update_wide_lt width p s d hw8 hp)

/-- The division property when the register is at least one byte wide. -/
theorem crc_wide_remainder (width poly : Nat) (data : List Nat) (hw8 : 8 ≤ width)
    (hw : width < 64) (hp : poly < 2 ^ width) (hdata : ∀ b ∈ data, b < 256) :
    crcfactory_crc width false poly 0 0 data < 2 ^ width ∧
    gf2_poly (crcfactory_crc width false poly 0 0 data)
      = (message_poly data * Polynomial.X ^ width) %ₘ generator_poly width poly := by
  have hlt : ¬ width < 8 := by omega
  have hcrc : crcfactory_crc width false poly 0 0 data
      = data.foldl (fun state d => crcfactory_update width false poly state d) 0
          % 2 ^ width := by
    simp only [crcfactory_crc, crcfactory_setup_poly, crcfactory_setup_state,
      Bool.false_eq_true, if_false, hlt]
    rw [result_wide width 0 _ hw8 hw, Nat.xor_zero]
  have hr : crcfactory_crc width false poly 0 0 data < 2 ^ width := by
    rw [hcrc]
    exact Nat.mod_lt _ (Nat.two_pow_pos _)
  refine ⟨hr, eq_modByMonic_of_dvd _ hp hr ?_⟩
  have h := message_poly_fold width poly hw8 (by omega) hp data hdata 0 0
    (by simp [gf2_poly_zero])
  rw [hcrc]
  simpa using h

/-! ### Sub-byte widths: the register is left-justified in a byte -/

theorem loop_wide_low_clear (width p m : Nat) (hp : ∀ i, i < m → p.testBit i = false) :
    ∀ (k x j : Nat), (∀ i, i < m → i < j → x.testBit i = false) →
      ∀ i, i < m → i < j + k → (loop (step_wide width p) k x).testBit i = false := by
  intro k
  induction k with
  | zero => intro x j hx i h1 h2; exact hx i h1 h2
  | succ k ih =>
    intro x j hx i h1 h2
    rw [loop]
    apply ih (step_wide width p x) (j + 1) _ i h1 (by omega)
    intro i h1 h2
    have hs : (shl x 1).testBit i = false := by
      rw [testBit_shl _ (by decide)]
      by_cases h3 : 1 ≤ i
      · rw [hx (i - 1) (by omega) (by omega)]
        simp
      · simp [h3]
    unfold step_wide
    split_ifs
    · rw [Nat.testBit_xor, hs, hp i h1]
      rfl
    · exact hs

theorem update_byte_low_clear (width p s d : Nat) (hw : width ≤ 8) (hd : d < 2 ^ 64)
    (hp : ∀ i, i < 8 - width → p.testBit i = false) :
    ∀ i, i < 8 - width → (crcfactory_update width false p s d).testBit i = false := by
  intro i hi
  rw [update_sub_byte_eq width p s d hw hd]
  simp only [crcfactory_update, Bool.false_eq_true, if_false, Nat.lt_irrefl]
  exact loop_wide_low_clear 8 p (8 - width) hp 8 _ 0 (fun i _ h => absurd h (Nat.not_lt_zero i))
    i hi (by omega)

theorem foldl_update_byte_low_clear (width p : Nat) (hw : width ≤ 8)
    (hp : ∀ i, i < 8 - width → p.testBit i = false) :
    ∀ (data : List Nat), (∀ b ∈ data, b < 256) → ∀ (s : Nat),
      (∀ i, i < 8 - width → s.testBit i = false) →
      ∀ i, i < 8 - width →
        (data.foldl (fun state d => crcfactory_update width false p state d) s).testBit i
          = false := by
  intro data
  induction data with
  | nil => intro _ s hs; exact hs
  | cons d ds ih =>
    intro hb s _
    exact ih (fun b hb' => hb b (List.mem_cons_of_mem d hb')) _
      (update_byte_low_clear width p s d hw
        (Nat.lt_of_lt_of_le (hb d (List.mem_cons_self d ds)) (by decide)) hp)

theorem foldl_update_sub_byte_eq (width p : Nat) (hw : width ≤ 8) (data : List Nat)
    (hdata : ∀ b ∈ data, b < 256) (s : Nat) :
    data.foldl (fun state d => crcfactory_update width false p state d) s
      = data.foldl (fun state d => crcfactory_update 8 false p state d) s :=
  List.foldl_ext _ _ s fun a b hb =>
    update_sub_byte_eq width p a b hw (Nat.lt_of_lt_of_le (hdata b hb) (by decide))

theorem gf2_poly_shl (a m n : Nat) (ha : a < 2 ^ n) (h : n + m ≤ 64) (hm : m < 64) :
    gf2_poly (shl a m) = gf2_poly a * Polynomial.X ^ m := by
  ext k
  rw [Polynomial.coeff_mul_X_pow', coeff_gf2_poly, coeff_gf2_poly, testBit_shl _ hm]
  by_cases h1 : m ≤ k
  · by_cases h2 : k < 64
    · simp [h1, h2]
    · have : a.testBit (k - m) = false := testBit_of_ge_of_lt ha (by omega)
      simp [h1, h2, this]
  · simp [h1]

/-- The finalizer's right shift of a left-justified byte divides its polynomial
by `x ^ (8 - width)`. -/
theorem gf2_poly_justified (width s : Nat) (hw : width ≤ 8)
    (hs : ∀ i, i < 8 - width → s.testBit i = false) :
    gf2_poly (s % 2 ^ 8)
      = gf2_poly (shr (s &&& 0xff) (8 - width)) * Polynomial.X ^ (8 - width) := by
  ext k
  rw [Polynomial.coeff_mul_X_pow', coeff_gf2_poly, coeff_gf2_poly, testBit_shr _ (by omega),
    and_ff, Nat.testBit_mod_two_pow, Nat.testBit_mod_two_pow]
  by_cases h1 : 8 - width ≤ k
  · have e : 8 - width + (k - (8 - width)) = k := by omega
    simp [h1, e]
  · have := hs k (by omega)
    simp [h1, this]

theorem shr_byte_lt (width s : Nat) (hw1 : 1 ≤ width) (hw : width ≤ 8) :
    shr (s &&& 0xff) (8 - width) < 2 ^ width := by
  apply Nat.lt_pow_two_of_testBit
  intro i hi
  rw [testBit_shr _ (by omega), and_ff, Nat.testBit_mod_two_pow]
  have : ¬ 8 - width + i < 8 := by omega
  simp [this]

theorem shl_zero_left (k : Nat) : shl 0 k = 0 := by
  simp [shl]

theorem shl_justify_lt (a width : Nat) (hw : width < 8) (ha : a < 2 ^ width) :
    shl a (8 - width) < 2 ^ 8 := by
  apply Nat.lt_pow_two_of_testBit
  intro i hi
  rw [testBit_shl _ (by omega)]
  have : a.testBit (i - (8 - width)) = false := testBit_of_ge_of_lt ha (by omega)
  simp [this]

/-- The division property when the register is narrower than a byte. -/
theorem crc_sub_byte_remainder (width poly : Nat) (data : List Nat) (hw1 : 1 ≤ width)
    (hw : width < 8) (hp : poly < 2 ^ width) (hdata : ∀ b ∈ data, b < 256) :
    crcfactory_crc width false poly 0 0 data < 2 ^ width ∧
    gf2_poly (crcfactory_crc width false poly 0 0 data)
      = (message_poly data * Polynomial.X ^ width) %ₘ generator_poly width poly := by
  have hle : width ≤ 8 := by omega
  have hcrc : crcfactory_crc width false poly 0 0 data
      = shr (data.foldl (fun state d => crcfactory_update width false
          (shl poly (8 - width)) state d) 0 &&& 0xff) (8 - width) := by
    simp only [crcfactory_crc, crcfactory_setup_poly, crcfactory_setup_state,
      crcfactory_result, Bool.false_eq_true, if_false, hw, if_true, shl_zero_left,
      Nat.xor_zero]
  have hr : crcfactory_crc width false poly 0 0 data < 2 ^ width := by
    rw [hcrc]
    exact shr_byte_lt width _ hw1 hle
  refine ⟨hr, eq_modByMonic_of_dvd _ hp hr ?_⟩
  rw [hcrc]
  have hplt : shl poly (8 - width) < 2 ^ 8 := shl_justify_lt poly width hw hp
  have hplow : ∀ i, i < 8 - width → (shl poly (8 - width)).testBit i = false := by
    intro i hi
    rw [testBit_shl _ (by omega)]
    have : ¬ 8 - width ≤ i := by omega
    simp [this]
  have hlow := foldl_update_byte_low_clear width (shl poly (8 - width)) hle hplow data hdata 0
    (fun i _ => Nat.zero_testBit i)
  have hdvd := message_poly_fold 8 (shl poly (8 - width)) (Nat.le_refl 8) (by decide) hplt
    data hdata 0 0 (by simp [gf2_poly_zero])
  rw [← foldl_update_sub_byte_eq width _ hle data hdata 0,
    gf2_poly_justified width _ hle hlow] at hdvd
  have hgen : generator_poly 8 (shl poly (8 - width))
      = generator_poly width poly * Polynomial.X ^ (8 - width) := by
    unfold generator_poly
    rw [gf2_poly_shl poly (8 - width) width hp (by omega) (by omega), add_mul, ← pow_add]
    congr 2
    omega
  have hmsg : (0 * Polynomial.X ^ (8 * data.length) + message_poly data)
        * (Polynomial.X : Polynomial (ZMod 2)) ^ 8
      = message_poly data * Polynomial.X ^ width * Polynomial.X ^ (8 - width) := by
    rw [zero_mul, zero_add, mul_assoc, ← pow_add]
    congr 2
    omega
  rw [hgen, hmsg, ← sub_mul] at hdvd
  exact (mul_dvd_mul_iff_right (pow_ne_zero _ Polynomial.X_ne_zero)).mp hdvd

/-- Below `width = 64` the engine divides: for `1 ≤ width ≤ 63`, `poly < 2 ^ width` and
every byte sequence `data`, the non-reflected checksum with `iv = 0`, `xorout = 0` is a
`width`-bit value whose polynomial over GF(2) is the remainder of `M(x) * x ^ width`
divided by `G(x) = x ^ width + P(x)`. -/
theorem crc_is_gf2_remainder_below_64 (width poly : Nat) (data : List Nat) (hw1 : 1 ≤ width)
    (hw : width < 64) (hp : poly < 2 ^ width) (hdata : ∀ b ∈ data, b < 256) :
    crcfactory_crc width false poly 0 0 data < 2 ^ width ∧
    gf2_poly (crcfactory_crc width false poly 0 0 data)
      = (message_poly data * Polynomial.X ^ width) %ₘ generator_poly width poly := by
  by_cases h8 : width < 8
  · exact crc_sub_byte_remainder width poly data hw1 h8 hp hdata
  · exact crc_wide_remainder width poly data (by omega) hw hp hdata

theorem gf2_poly_one : gf2_poly 1 = 1 := by
  ext k
  rw [coeff_gf2_poly, Polynomial.coeff_one]
  by_cases hk : k = 0
  · subst hk
    simp
  · have : Nat.testBit 1 k = false := by
      cases h : Nat.testBit 1 k
      · rfl
      · exact absurd (Nat.testBit_one_eq_true_iff_self_eq_zero.mp h) hk
    simp [this, hk]

theorem gf2_poly_add_self (n : Nat) : gf2_poly n + gf2_poly n = 0 := by
  rw [← gf2_poly_xor, Nat.xor_self, gf2_poly_zero]

/-- The remainder of `x ^ width` by the generator is `P(x)`. -/
theorem message_one_remainder (width poly : Nat) (hp : poly < 2 ^ width) :
    (message_poly [0x01] * Polynomial.X ^ width) %ₘ generator_poly width poly
      = gf2_poly poly := by
  symm
  apply eq_modByMonic_of_dvd _ hp hp
  have hm : message_poly [0x01] = 1 := by
    simp [message_poly, gf2_poly_one]
  have hneg : Polynomial.X ^ width - gf2_poly poly = generator_poly width poly := by
    unfold generator_poly
    rw [sub_eq_add_neg]
    congr 1
    exact (eq_neg_of_add_eq_zero_left (gf2_poly_add_self poly)).symm
  rw [hm, one_mul, hneg]

/-- C5: the code breaks the claim at `width = 64`.  There the non-reflected finalizer
masks the register to `0`, so with `iv = 0`, `xorout = 0` the checksum is `0` for every
message; for `poly = 0x42F0E1EBA9EA3693` it is `0` on the bytes of `"123456789"` and on
the single byte `0x01`, whose remainder is `P(x)`, not `0`. -/
theorem crc_not_remainder_at_width_64 :
    (∀ poly data, crcfactory_crc 64 false poly 0 0 data = 0) ∧
    crcfactory_crc 64 false 0x42F0E1EBA9EA3693 0 0 check_input = 0 ∧
    (message_poly [0x01] * Polynomial.X ^ 64) %ₘ generator_poly 64 0x42F0E1EBA9EA3693
      = gf2_poly 0x42F0E1EBA9EA3693 ∧
    gf2_poly (crcfactory_crc 64 false 0x42F0E1EBA9EA3693 0 0 [0x01])
      ≠ (message_poly [0x01] * Polynomial.X ^ 64) %ₘ generator_poly 64 0x42F0E1EBA9EA3693 := by
  have hall : ∀ poly data, crcfactory_crc 64 false poly 0 0 data = 0 := by
    intro poly data
    simp only [crcfactory_crc, result_64]
  have hrem := message_one_remainder 64 0x42F0E1EBA9EA3693 (by decide)
  refine ⟨hall, hall _ _, hrem, ?_⟩
  rw [hall, hrem, gf2_poly_zero]
  intro h
  have hc := congrArg (fun p => Polynomial.coeff p 0) h
  simp only [Polynomial.coeff_zero, coeff_gf2_poly] at hc
  have hb : Nat.testBit 0x42F0E1EBA9EA3693 0 = true := by decide
  rw [hb] at hc
  simp at hc

/-! ## Range of the checksum and of the table entries -/

theorem update_reflected_lt (width p s d : Nat) (hp : p < 2 ^ width) (hs : s < 2 ^ width)
    (hd : d < 256) : crcfactory_update width true p s d < 2 ^ width := by
  apply Nat.lt_pow_two_of_testBit
  intro i hi
  simp only [crcfactory_update, if_true]
  apply loop_reflected_clear p width hp 8 _ _ i hi
  intro j hj
  rw [Nat.testBit_xor, testBit_of_ge_of_lt hs (by omega),
    testBit_of_ge_of_lt (n := 8) hd (by omega)]
  rfl

theorem foldl_update_reflected_lt (width p : Nat) (hp : p < 2 ^ width) :
    ∀ (data : List Nat), (∀ b ∈ data, b < 256) → ∀ (s : Nat), s < 2 ^ width →
      data.foldl (fun state d => crcfactory_update width true p state d) s < 2 ^ width := by
  intro data
  induction data with
  | nil => intro _ s hs; exact hs
  | cons d ds ih =>
    intro hb s hs
    exact ih (fun b hb' => hb b (List.mem_cons_of_mem d hb')) _
      (update_reflected_lt width p s d hp hs (hb d (List.mem_cons_self d ds)))

theorem setup_poly_reflected_lt (width poly : Nat) (hw1 : 1 ≤ width) (hw : width ≤ 64) :
    crcfactory_setup_poly width true poly < 2 ^ width := by
  simp only [crcfactory_setup_poly, if_true]
  exact reflect_lt width poly hw1 hw

theorem setup_state_reflected_lt (width iv : Nat) (hw1 : 1 ≤ width) (hw : width ≤ 64) :
    crcfactory_setup_state width true iv < 2 ^ width := by
  simp only [crcfactory_setup_state, if_true]
  exact reflect_lt width iv hw1 hw

theorem setup_state_lt (width : Nat) (reflected : Bool) (iv : Nat) (hw1 : 1 ≤ width)
    (hw : width ≤ 64) (hiv : iv < 2 ^ 64) :
    crcfactory_setup_state width reflected iv < 2 ^ 64 := by
  cases reflected with
  | true =>
    exact Nat.lt_of_lt_of_le (setup_state_reflected_lt width iv hw1 hw)
      (Nat.pow_le_pow_right (by decide) hw)
  | false =>
    simp only [crcfactory_setup_state, Bool.false_eq_true, if_false]
    split_ifs
    · exact shl_lt _ _
    · exact hiv

theorem setup_poly_lt (width : Nat) (reflected : Bool) (poly : Nat) (hw1 : 1 ≤ width)
    (hw : width ≤ 64) (hp : poly < 2 ^ 64) :
    crcfactory_setup_poly width reflected poly < 2 ^ 64 := by
  cases reflected with
  | true =>
    exact Nat.lt_of_lt_of_le (setup_poly_reflected_lt width poly hw1 hw)
      (Nat.pow_le_pow_right (by decide) hw)
  | false =>
    simp only [crcfactory_setup_poly, Bool.false_eq_true, if_false]
    split_ifs
    · exact shl_lt _ _
    · exact hp

/-- C11: for `1 ≤ width ≤ 64`, both values of `reflected`, 64-bit `poly` and `iv`, every
byte sequence and `xorout < 2 ^ width`, the checksum is below `2 ^ width`; and in reflected
mode the state after `crcfactory_setup_state` and after every byte of the message is
already below `2 ^ width`. -/
theorem crc_lt_two_pow (width : Nat) (reflected : Bool) (poly iv xorout : Nat)
    (data : List Nat) (hw1 : 1 ≤ width) (hw : width ≤ 64) (_hpoly : poly < 2 ^ 64)
    (_hiv : iv < 2 ^ 64) (hxor : xorout < 2 ^ width) (hdata : ∀ b ∈ data, b < 256) :
    crcfactory_crc width reflected poly iv xorout data < 2 ^ width ∧
    (reflected = true → ∀ n,
      (data.take n).foldl (fun state d => crcfactory_update width reflected
          (crcfactory_setup_poly width reflected poly) state d)
        (crcfactory_setup_state width reflected iv) < 2 ^ width) := by
  have hrefl : ∀ (l : List Nat), (∀ b ∈ l, b < 256) →
      l.foldl (fun state d => crcfactory_update width true
          (crcfactory_setup_poly width true poly) state d)
        (crcfactory_setup_state width true iv) < 2 ^ width := fun l hl =>
    foldl_update_reflected_lt width _ (setup_poly_reflected_lt width poly hw1 hw) l hl _
      (setup_state_reflected_lt width iv hw1 hw)
  constructor
  · cases reflected with
    | true =>
      simp only [crcfactory_crc, crcfactory_result, if_true]
      exact Nat.xor_lt_two_pow (hrefl data hdata) hxor
    | false =>
      by_cases h8 : width < 8
      · simp only [crcfactory_crc, crcfactory_result, Bool.false_eq_true, if_false, h8,
          if_true]
        exact Nat.xor_lt_two_pow (shr_byte_lt width _ hw1 (by omega)) hxor
      · simp only [crcfactory_crc]
        rcases Nat.lt_or_ge width 64 with h64 | h64
        · rw [result_wide width xorout _ (by omega) h64]
          exact Nat.xor_lt_two_pow (Nat.mod_lt _ (Nat.two_pow_pos _)) hxor
        · have e : width = 64 := by omega
          subst e
          rw [result_64]
          exact hxor
  · intro hr n
    subst hr
    exact hrefl (data.take n) (fun b hb => hdata b (List.mem_of_mem_take hb))

theorem crc_lt_two_pow_witness :
    (1 ≤ 5 ∧ 5 ≤ 64 ∧ 0x15 < 2 ^ 64 ∧ 0x1F < 2 ^ 64 ∧ 0x1F < 2 ^ 5 ∧
      ∀ b ∈ check_input, b < 256) ∧
    (crcfactory_crc 5 true 0x15 0x1F 0x1F check_input < 2 ^ 5 ∧
     (true = true → ∀ n,
      (check_input.take n).foldl (fun state d => crcfactory_update 5 true
          (crcfactory_setup_poly 5 true 0x15) state d)
        (crcfactory_setup_state 5 true 0x1F) < 2 ^ 5)) :=
  ⟨by decide, crc_lt_two_pow 5 true 0x15 0x1F 0x1F check_input (by decide) (by decide)
    (by decide) (by decide) (by decide) (by decide)⟩

/-- C12: on the empty byte sequence `crcfactory_crc` is the finalizer applied to the
normalized initial value, whatever `poly` is. -/
theorem crc_empty (width : Nat) (reflected : Bool) (poly iv xorout : Nat) :
    crcfactory_crc width reflected poly iv xorout []
      = crcfactory_result width reflected xorout
          (crcfactory_setup_state width reflected iv) ∧
    ∀ poly', crcfactory_crc width reflected poly' iv xorout []
      = crcfactory_crc width reflected poly iv xorout [] := by
  constructor
  · simp only [crcfactory_crc, List.foldl_nil]
  · intro poly'
    simp only [crcfactory_crc, List.foldl_nil]

theorem table_init_get_some (width : Nat) (reflected : Bool) (poly j t : Nat)
    (h : (crcfactory_table_init width reflected poly)[j]? = some t) :
    j < 256 ∧ t = _crcfactory_mask width reflected
      (crcfactory_update width reflected (crcfactory_setup_poly width reflected poly) 0 j) := by
  by_cases hj : j < 256
  · rw [table_init_get width reflected poly j hj] at h
    exact ⟨hj, (Option.some.inj h).symm⟩
  · rw [table_init_get_none width reflected poly j (by omega)] at h
    exact absurd h (by simp)

/-- C13, as stated, fails for `width < 8`: for `width = 3`, `poly = 0x3`, entry `1` of the
non-reflected table is `0x60`, which is not below `2 ^ 3`. -/
theorem table_entry_not_below_width :
    (crcfactory_table_init 3 false 0x3)[1]? = some 0x60 ∧ ¬ (0x60 < 2 ^ 3) ∧
    ¬ ∀ e, (crcfactory_table_init 3 false 0x3)[1]? = some e → e < 2 ^ 3 := by
  refine ⟨by decide, by decide, ?_⟩
  intro h
  exact absurd (h 0x60 (by decide)) (by decide)

/-- C13 amended: for `1 ≤ width ≤ 64`, every 64-bit `poly` and every byte value `i`,
entry `i` of the non-reflected table is below `2 ^ max width 8`: masked to `width` bits
for `width ≥ 8`, and to a byte for `width < 8`. -/
theorem table_entry_lt (width poly i : Nat) (hw1 : 1 ≤ width) (hw : width ≤ 64)
    (_hpoly : poly < 2 ^ 64) (hi : i < 256) :
    ∃ e, (crcfactory_table_init width false poly)[i]? = some e ∧ e < 2 ^ max width 8 ∧
      (8 ≤ width → e < 2 ^ width) ∧ (width < 8 → e < 2 ^ 8) := by
  refine ⟨_, table_init_get width false poly i hi, ?_⟩
  by_cases h8 : width ≤ 8
  · have hb : _crcfactory_mask width false (crcfactory_update width false
        (crcfactory_setup_poly width false poly) 0 i) < 2 ^ 8 := by
      simp only [_crcfactory_mask, Bool.not_false, Bool.true_and, h8, decide_True, if_true]
      exact and_ff_lt _
    refine ⟨?_, ?_, fun _ => hb⟩
    · rw [Nat.max_eq_right h8]
      exact hb
    · intro h
      have : width = 8 := by omega
      subst this
      exact hb
  · have hb : _crcfactory_mask width false (crcfactory_update width false
        (crcfactory_setup_poly width false poly) 0 i) < 2 ^ width := by
      rcases Nat.lt_or_ge width 64 with h64 | h64
      · rw [mask_general width false _ (by simp [h8]) hw1 h64]
        exact Nat.mod_lt _ (Nat.two_pow_pos _)
      · have e : width = 64 := by omega
        subst e
        rw [mask_64]
        exact Nat.two_pow_pos 64
    refine ⟨?_, fun _ => hb, fun h => absurd h (by omega)⟩
    rw [Nat.max_eq_left (by omega)]
    exact hb

theorem table_entry_lt_witness :
    (1 ≤ 3 ∧ 3 ≤ 64 ∧ 0x3 < 2 ^ 64 ∧ 1 < 256) ∧
    ∃ e, (crcfactory_table_init 3 false 0x3)[1]? = some e ∧ e < 2 ^ max 3 8 ∧
      (8 ≤ 3 → e < 2 ^ 3) ∧ (3 < 8 → e < 2 ^ 8) :=
  ⟨by decide, table_entry_lt 3 0x3 1 (by decide) (by decide) (by decide) (by decide)⟩

theorem setup_poly_low_clear (width poly : Nat) (hw : width < 8) :
    ∀ i, i < 8 - width → (crcfactory_setup_poly width false poly).testBit i = false := by
  intro i hi
  simp only [crcfactory_setup_poly, Bool.false_eq_true, if_false, hw, if_true]
  rw [testBit_shl _ (by omega)]
  have : ¬ 8 - width ≤ i := by omega
  simp [this]

theorem table_entry_justified (width poly j t : Nat) (hw : width < 8)
    (h : (crcfactory_table_init width false poly)[j]? = some t) :
    t < 256 ∧ ∀ k, k < 8 - width → t.testBit k = false := by
  obtain ⟨hj, ht⟩ := table_init_get_some width false poly j t h
  have hle : width ≤ 8 := by omega
  simp only [_crcfactory_mask, Bool.not_false, Bool.true_and, hle, decide_True, if_true] at ht
  subst ht
  refine ⟨and_ff_lt _, ?_⟩
  intro k hk
  rw [Nat.testBit_and, update_byte_low_clear width _ 0 j hle
    (Nat.lt_of_lt_of_le hj (by decide)) (setup_poly_low_clear width poly hw) k hk]
  rfl

theorem shl_shr_justified (width t : Nat) (hw : width < 8) (ht : t < 256)
    (hlow : ∀ k, k < 8 - width → t.testBit k = false) :
    shl (shr (t &&& 0xff) (8 - width)) (8 - width) = t := by
  apply Nat.eq_of_testBit_eq
  intro k
  rw [testBit_shl _ (by omega), testBit_shr _ (by omega), and_ff, Nat.testBit_mod_two_pow]
  by_cases h1 : 8 - width ≤ k
  · have e : 8 - width + (k - (8 - width)) = k := by omega
    by_cases h2 : k < 8
    · have h3 : k < 64 := by omega
      simp [h1, h2, h3, e]
    · have : t.testBit k = false := testBit_of_ge_of_lt (n := 8) ht (by omega)
      simp [h1, h2, e, this]
  · rw [hlow k (by omega)]
    simp [h1]

/-- C19: for `1 ≤ width ≤ 7`, every `poly` and every byte value `i`, entry `i` of the
non-reflected table is below 256 and its low `8 - width` bits are clear; hence every state
`t` produced by `crcfactory_table_update` is such a byte, and shifting the finalizer's
`(t AND 0xff) >> (8 - width)` back left by `8 - width` gives `t`: no set bit is lost. -/
theorem sub_byte_table_left_justified (width poly i : Nat) (hw1 : 1 ≤ width)
    (hw : width < 8) (hi : i < 256) :
    (∃ e, (crcfactory_table_init width false poly)[i]? = some e ∧ e < 256 ∧
      ∀ k, k < 8 - width → e.testBit k = false) ∧
    ∀ s d t,
      crcfactory_table_update width false (crcfactory_table_init width false poly) s d
        = some t →
      t < 256 ∧ (∀ k, k < 8 - width → t.testBit k = false) ∧
      shl (shr (t &&& 0xff) (8 - width)) (8 - width) = t := by
  constructor
  · have h := table_init_get width false poly i hi
    exact ⟨_, h, table_entry_justified width poly i _ hw h⟩
  · intro s d t h
    have hle : width ≤ 8 := by omega
    simp only [crcfactory_table_update, Bool.false_eq_true, if_false, hle, if_true] at h
    obtain ⟨h1, h2⟩ := table_entry_justified width poly _ t hw h
    exact ⟨h1, h2, shl_shr_justified width t hw h1 h2⟩

theorem sub_byte_table_left_justified_witness :
    (1 ≤ 3 ∧ 3 < 8 ∧ 1 < 256) ∧
    ((∃ e, (crcfactory_table_init 3 false 0x3)[1]? = some e ∧ e < 256 ∧
      ∀ k, k < 8 - 3 → e.testBit k = false) ∧
    ∀ s d t,
      crcfactory_table_update 3 false (crcfactory_table_init 3 false 0x3) s d = some t →
      t < 256 ∧ (∀ k, k < 8 - 3 → t.testBit k = false) ∧
      shl (shr (t &&& 0xff) (8 - 3)) (8 - 3) = t) :=
  ⟨by decide, sub_byte_table_left_justified 3 0x3 1 (by decide) (by decide) (by decide)⟩

/-! ## The engine is XOR-linear -/

theorem ite_xor_bit (n a b p : Nat) :
    (if (a ^^^ b) &&& 2 ^ n ≠ 0 then p else 0)
      = (if a &&& 2 ^ n ≠ 0 then p else 0) ^^^ (if b &&& 2 ^ n ≠ 0 then p else 0) := by
  simp only [and_two_pow_ne_zero_iff, Nat.testBit_xor]
  cases a.testBit n <;> cases b.testBit n <;> simp

theorem shl_one_eq (k : Nat) : shl 1 k = 2 ^ (k % 64) := by
  unfold shl
  rw [Nat.one_shiftLeft]
  exact Nat.mod_eq_of_lt (Nat.pow_lt_pow_right (by decide) (Nat.mod_lt _ (by decide)))

theorem step_reflected_eq (p s : Nat) :
    step_reflected p s = shr s 1 ^^^ (if s &&& 2 ^ 0 ≠ 0 then p else 0) := by
  unfold step_reflected
  simp only [Nat.pow_zero]
  split_ifs <;> simp

theorem step_wide_eq (width p s : Nat) :
    step_wide width p s
      = shl s 1 ^^^ (if s &&& 2 ^ ((width - 1) % 64) ≠ 0 then p else 0) := by
  unfold step_wide
  rw [shl_one_eq]
  split_ifs <;> simp

theorem xor_xor_xor_comm (a b c d : Nat) : (a ^^^ b) ^^^ (c ^^^ d) = (a ^^^ c) ^^^ (b ^^^ d) := by
  apply Nat.eq_of_testBit_eq
  intro i
  simp only [Nat.testBit_xor]
  cases a.testBit i <;> cases b.testBit i <;> cases c.testBit i <;> cases d.testBit i <;> rfl

theorem step_reflected_add (p a b : Nat) :
    step_reflected p (a ^^^ b) = step_reflected p a ^^^ step_reflected p b := by
  rw [step_reflected_eq, step_reflected_eq, step_reflected_eq, shr_xor, ite_xor_bit,
    xor_xor_xor_comm]

theorem step_wide_add (width p a b : Nat) :
    step_wide width p (a ^^^ b) = step_wide width p a ^^^ step_wide width p b := by
  rw [step_wide_eq, step_wide_eq, step_wide_eq, shl_xor, ite_xor_bit, xor_xor_xor_comm]

theorem loop_add (f : Nat → Nat) (hf : ∀ a b, f (a ^^^ b) = f a ^^^ f b) :
    ∀ (k a b : Nat), loop f k (a ^^^ b) = loop f k a ^^^ loop f k b := by
  intro k
  induction k with
  | zero => intro a b; rfl
  | succ k ih => intro a b; simp only [loop]; rw [hf, ih]

/-- The byte update is additive in the pair (state, data byte). -/
theorem update_add (width : Nat) (reflected : Bool) (p s1 s2 d1 d2 : Nat) :
    crcfactory_update width reflected p (s1 ^^^ s2) (d1 ^^^ d2)
      = crcfactory_update width reflected p s1 d1
        ^^^ crcfactory_update width reflected p s2 d2 := by
  unfold crcfactory_update
  split_ifs
  · rw [xor_xor_xor_comm, loop_add _ (step_reflected_add p)]
  · rw [xor_xor_xor_comm, step_sub_byte_eq, loop_add _ (step_wide_add 8 p)]
  · rw [shl_xor, xor_xor_xor_comm, loop_add _ (step_wide_add width p)]

theorem foldl_update_add (width : Nat) (reflected : Bool) (p : Nat) :
    ∀ (a b : List Nat), a.length = b.length → ∀ (s1 s2 : Nat),
      (xor_bytes a b).foldl (fun state d => crcfactory_update width reflected p state d)
          (s1 ^^^ s2)
        = a.foldl (fun state d => crcfactory_update width reflected p state d) s1
          ^^^ b.foldl (fun state d => crcfactory_update width reflected p state d) s2 := by
  intro a
  induction a with
  | nil =>
    intro b hb s1 s2
    have : b = [] := List.length_eq_zero.mp hb.symm
    subst this
    rfl
  | cons x xs ih =>
    intro b hb s1 s2
    cases b with
    | nil => simp at hb
    | cons y ys =>
      have hlen : xs.length = ys.length := by simpa using hb
      simp only [xor_bytes, List.zipWith_cons_cons, List.foldl_cons]
      rw [update_add]
      exact ih ys hlen _ _

theorem mask_add (width : Nat) (reflected : Bool) (a b : Nat) :
    _crcfactory_mask width reflected (a ^^^ b)
      = _crcfactory_mask width reflected a ^^^ _crcfactory_mask width reflected b := by
  unfold _crcfactory_mask
  split_ifs
  · exact Nat.and_xor_distrib_right
  · rfl
  · exact Nat.and_xor_distrib_right

/-- The finalizer with `xorout = 0` is additive. -/
theorem result_zero_add (width : Nat) (reflected : Bool) (a b : Nat) :
    crcfactory_result width reflected 0 (a ^^^ b)
      = crcfactory_result width reflected 0 a ^^^ crcfactory_result width reflected 0 b := by
  unfold crcfactory_result
  simp only [Nat.xor_zero]
  split_ifs
  · rfl
  · rw [Nat.and_xor_distrib_right, shr_xor]
  · exact mask_add width reflected a b

theorem result_eq_zero_xor (width : Nat) (reflected : Bool) (xorout s : Nat) :
    crcfactory_result width reflected xorout s
      = crcfactory_result width reflected 0 s ^^^ xorout := by
  unfold crcfactory_result
  simp only [Nat.xor_zero]

theorem xor_bytes_length (a b : List Nat) (h : a.length = b.length) :
    (xor_bytes a b).length = b.length := by
  simp [xor_bytes, List.length_zipWith, h]

theorem setup_state_zero (width : Nat) (reflected : Bool) (hw1 : 1 ≤ width) (hw : width ≤ 64) :
    crcfactory_setup_state width reflected 0 = 0 := by
  unfold crcfactory_setup_state
  split_ifs
  · apply Nat.eq_of_testBit_eq
    intro i
    rw [testBit_reflect width 0 i hw1 hw]
    simp
  · exact shl_zero_left _
  · rfl

/-- C18: for `1 ≤ width ≤ 64`, both values of `reflected`, every `poly`, `iv`, `xorout`
and three byte sequences of the same length, the checksum of the bytewise XOR of the
three is the XOR of the three checksums; with `iv = 0` and `xorout = 0` the checksum of
the XOR of two messages is the XOR of their checksums. -/
theorem crc_affine (width : Nat) (reflected : Bool) (poly iv xorout : Nat)
    (a b c : List Nat) (hw1 : 1 ≤ width) (hw : width ≤ 64)
    (hab : a.length = b.length) (hbc : b.length = c.length) :
    crcfactory_crc width reflected poly iv xorout (xor_bytes (xor_bytes a b) c)
      = crcfactory_crc width reflected poly iv xorout a
        ^^^ crcfactory_crc width reflected poly iv xorout b
        ^^^ crcfactory_crc width reflected poly iv xorout c ∧
    crcfactory_crc width reflected poly 0 0 (xor_bytes a b)
      = crcfactory_crc width reflected poly 0 0 a
        ^^^ crcfactory_crc width reflected poly 0 0 b := by
  constructor
  · simp only [crcfactory_crc]
    generalize crcfactory_setup_poly width reflected poly = p
    generalize crcfactory_setup_state width reflected iv = s0
    have hs : s0 = (s0 ^^^ s0) ^^^ s0 := by rw [Nat.xor_self, Nat.zero_xor]
    have hlen : (xor_bytes a b).length = c.length := by
      rw [xor_bytes_length a b hab, hbc]
    conv_lhs => rw [hs]
    rw [foldl_update_add width reflected p _ c hlen, foldl_update_add width reflected p a b hab,
      result_eq_zero_xor, result_zero_add, result_zero_add,
      result_eq_zero_xor width reflected xorout (a.foldl _ s0),
      result_eq_zero_xor width reflected xorout (b.foldl _ s0),
      result_eq_zero_xor width reflected xorout (c.foldl _ s0)]
    apply Nat.eq_of_testBit_eq
    intro i
    simp only [Nat.testBit_xor]
    cases Nat.testBit xorout i <;> simp
  · simp only [crcfactory_crc, setup_state_zero width reflected hw1 hw]
    generalize crcfactory_setup_poly width reflected poly = p
    have h := foldl_update_add width reflected p a b hab 0 0
    rw [Nat.xor_self] at h
    rw [h, result_zero_add]

theorem crc_affine_witness :
    (1 ≤ 16 ∧ 16 ≤ 64 ∧ [0x31, 0x32, 0x33].length = [0x41, 0x42, 0x43].length ∧
      [0x41, 0x42, 0x43].length = [0xF0, 0x0F, 0xFF].length) ∧
    (crcfactory_crc 16 false 0x1021 0xFFFF 0x1234
        (xor_bytes (xor_bytes [0x31, 0x32, 0x33] [0x41, 0x42, 0x43]) [0xF0, 0x0F, 0xFF])
      = crcfactory_crc 16 false 0x1021 0xFFFF 0x1234 [0x31, 0x32, 0x33]
        ^^^ crcfactory_crc 16 false 0x1021 0xFFFF 0x1234 [0x41, 0x42, 0x43]
        ^^^ crcfactory_crc 16 false 0x1021 0xFFFF 0x1234 [0xF0, 0x0F, 0xFF] ∧
    crcfactory_crc 16 false 0x1021 0 0 (xor_bytes [0x31, 0x32, 0x33] [0x41, 0x42, 0x43])
      = crcfactory_crc 16 false 0x1021 0 0 [0x31, 0x32, 0x33]
        ^^^ crcfactory_crc 16 false 0x1021 0 0 [0x41, 0x42, 0x43]) :=
  ⟨by decide, crc_affine 16 false 0x1021 0xFFFF 0x1234 [0x31, 0x32, 0x33]
    [0x41, 0x42, 0x43] [0xF0, 0x0F, 0xFF] (by decide) (by decide) (by decide) (by decide)⟩

/-! ## Bits above `width` in `poly` and `iv` -/

theorem step_wide_congr (width p q s t : Nat) (hw1 : 1 ≤ width) (hw : width ≤ 64)
    (hp : p % 2 ^ width = q % 2 ^ width) (hs : s % 2 ^ width = t % 2 ^ width) :
    step_wide width p s % 2 ^ width = step_wide width q t % 2 ^ width := by
  have hbit : s.testBit (width - 1) = t.testBit (width - 1) :=
    testBit_eq_of_mod_eq hs (by omega)
  have hshl : shl s 1 % 2 ^ width = shl t 1 % 2 ^ width := by
    apply mod_eq_of_testBit_eq
    intro i hi
    rw [testBit_shl _ (by decide), testBit_shl _ (by decide)]
    by_cases h1 : 1 ≤ i
    · rw [testBit_eq_of_mod_eq hs (by omega : i - 1 < width)]
    · simp [h1]
  rw [step_wide_eq, step_wide_eq, Nat.mod_eq_of_lt (by omega : width - 1 < 64)]
  simp only [and_two_pow_ne_zero_iff, hbit]
  rw [xor_mod_two_pow, xor_mod_two_pow (shl t 1), hshl]
  congr 1
  split_ifs
  · exact hp
  · rfl

theorem loop_wide_congr (width p q : Nat) (hw1 : 1 ≤ width) (hw : width ≤ 64)
    (hp : p % 2 ^ width = q % 2 ^ width) :
    ∀ (k s t : Nat), s % 2 ^ width = t % 2 ^ width →
      loop (step_wide width p) k s % 2 ^ width = loop (step_wide width q) k t % 2 ^ width := by
  intro k
  induction k with
  | zero => intro s t h; exact h
  | succ k ih =>
    intro s t h
    simp only [loop]
    exact ih _ _ (step_wide_congr width p q s t hw1 hw hp h)

/-- For `width ≥ 8` the low `width` bits of the non-reflected update depend only on the
low `width` bits of the polynomial and of the state. -/
theorem update_wide_congr_poly (width p q s t d : Nat) (hw8 : 8 ≤ width) (hw : width ≤ 64)
    (hp : p % 2 ^ width = q % 2 ^ width) (hs : s % 2 ^ width = t % 2 ^ width) :
    crcfactory_update width false p s d % 2 ^ width
      = crcfactory_update width false q t d % 2 ^ width := by
  have hlt : ¬ width < 8 := by omega
  simp only [crcfactory_update, Bool.false_eq_true, if_false, hlt]
  apply loop_wide_congr width p q (by omega) hw hp
  rw [xor_mod_two_pow, xor_mod_two_pow t, hs]

theorem foldl_update_wide_congr (width p q : Nat) (hw8 : 8 ≤ width) (hw : width ≤ 64)
    (hp : p % 2 ^ width = q % 2 ^ width) :
    ∀ (data : List Nat) (s t : Nat), s % 2 ^ width = t % 2 ^ width →
      data.foldl (fun state d => crcfactory_update width false p state d) s % 2 ^ width
        = data.foldl (fun state d => crcfactory_update width false q state d) t
            % 2 ^ width := by
  intro data
  induction data with
  | nil => intro s t h; exact h
  | cons d ds ih =>
    intro s t h
    simp only [List.foldl_cons]
    exact ih _ _ (update_wide_congr_poly width p q s t d hw8 hw hp h)

theorem reflect_mod (width v : Nat) (hw1 : 1 ≤ width) (hw : width ≤ 64) :
    crcfactory_reflect width (v % 2 ^ width) = crcfactory_reflect width v := by
  apply Nat.eq_of_testBit_eq
  intro i
  rw [testBit_reflect _ _ _ hw1 hw, testBit_reflect _ _ _ hw1 hw, Nat.testBit_mod_two_pow]
  by_cases hi : i < width
  · have : width - 1 - i < width := by omega
    simp [hi, this]
  · simp [hi]

theorem shl_justify_mod (width v : Nat) (hw : width < 8) :
    shl (v % 2 ^ width) (8 - width) % 2 ^ 8 = shl v (8 - width) % 2 ^ 8 := by
  apply mod_eq_of_testBit_eq
  intro i hi
  rw [testBit_shl _ (by omega), testBit_shl _ (by omega), Nat.testBit_mod_two_pow]
  by_cases h1 : 8 - width ≤ i
  · have : i - (8 - width) < width := by omega
    simp [h1, this]
  · simp [h1]

/-- C16: for `1 ≤ width ≤ 64`, both values of `reflected`, 64-bit `poly` and `iv`, every
`xorout` and every byte sequence, the checksum is unchanged when `poly` and `iv` are
reduced modulo `2 ^ width`. -/
theorem crc_ignores_high_bits (width : Nat) (reflected : Bool) (poly iv xorout : Nat)
    (data : List Nat) (hw1 : 1 ≤ width) (hw : width ≤ 64) (_hpoly : poly < 2 ^ 64)
    (_hiv : iv < 2 ^ 64) (hdata : ∀ b ∈ data, b < 256) :
    crcfactory_crc width reflected poly iv xorout data
      = crcfactory_crc width reflected (poly % 2 ^ width) (iv % 2 ^ width) xorout data := by
  cases reflected with
  | true =>
    simp only [crcfactory_crc, crcfactory_setup_poly, crcfactory_setup_state, if_true,
      reflect_mod width _ hw1 hw]
  | false =>
    by_cases h8 : width < 8
    · have hle : width ≤ 8 := by omega
      simp only [crcfactory_crc, crcfactory_setup_poly, crcfactory_setup_state,
        crcfactory_result, Bool.false_eq_true, if_false, h8, if_true]
      rw [foldl_update_sub_byte_eq width _ hle data hdata,
        foldl_update_sub_byte_eq width _ hle data hdata, and_ff, and_ff,
        foldl_update_wide_congr 8 (shl poly (8 - width)) (shl (poly % 2 ^ width) (8 - width))
          (Nat.le_refl 8) (by decide) (shl_justify_mod width poly h8).symm data
          (shl iv (8 - width)) (shl (iv % 2 ^ width) (8 - width))
          (shl_justify_mod width iv h8).symm]
    · have h8' : 8 ≤ width := by omega
      simp only [crcfactory_crc, crcfactory_setup_poly, crcfactory_setup_state,
        Bool.false_eq_true, if_false, h8]
      rcases Nat.lt_or_ge width 64 with h64 | h64
      · rw [result_wide width xorout _ h8' h64, result_wide width xorout _ h8' h64,
          foldl_update_wide_congr width poly (poly % 2 ^ width) h8' hw (Nat.mod_mod _ _).symm
            data iv (iv % 2 ^ width) (Nat.mod_mod _ _).symm]
      · have e : width = 64 := by omega
        subst e
        rw [result_64, result_64]

theorem crc_ignores_high_bits_witness :
    (1 ≤ 5 ∧ 5 ≤ 64 ∧ 0xFFFFFFFFFFFFFFF5 < 2 ^ 64 ∧ 0xABCDEF0123456789 < 2 ^ 64 ∧
      ∀ b ∈ check_input, b < 256) ∧
    crcfactory_crc 5 false 0xFFFFFFFFFFFFFFF5 0xABCDEF0123456789 0x1F check_input
      = crcfactory_crc 5 false (0xFFFFFFFFFFFFFFF5 % 2 ^ 5) (0xABCDEF0123456789 % 2 ^ 5)
          0x1F check_input :=
  ⟨by decide, crc_ignores_high_bits 5 false 0xFFFFFFFFFFFFFFF5 0xABCDEF0123456789 0x1F
    check_input (by decide) (by decide) (by decide) (by decide) (by decide)⟩

/-! ## Reflected mode as the bit reversal of non-reflected mode -/

/-- Reflecting the register turns one non-reflected bit step into one reflected bit step. -/
theorem reflect_step_wide (width p s : Nat) (hw1 : 1 ≤ width) (hw : width ≤ 64) :
    crcfactory_reflect width (step_wide width p s)
      = step_reflected (crcfactory_reflect width p) (crcfactory_reflect width s) := by
  have hc : (crcfactory_reflect width s).testBit 0 = s.testBit (width - 1) := by
    rw [testBit_reflect _ _ _ hw1 hw]
    have : 0 < width := by omega
    simp [this]
  apply Nat.eq_of_testBit_eq
  intro i
  rw [step_wide_eq, step_reflected_eq, Nat.mod_eq_of_lt (by omega : width - 1 < 64),
    testBit_reflect _ _ _ hw1 hw, Nat.testBit_xor, Nat.testBit_xor,
    testBit_shl _ (by decide), testBit_shr _ (by decide), testBit_reflect _ _ _ hw1 hw]
  simp only [and_two_pow_ne_zero_iff, hc]
  have hshift : (decide (i < width) && (decide (width - 1 - i < 64)
        && (decide (1 ≤ width - 1 - i) && s.testBit (width - 1 - i - 1))))
      = (decide (1 + i < width) && s.testBit (width - 1 - (1 + i))) := by
    by_cases h1 : 1 + i < width
    · have h2 : i < width := by omega
      have h3 : width - 1 - i < 64 := by omega
      have h4 : 1 ≤ width - 1 - i := by omega
      have e : width - 1 - i - 1 = width - 1 - (1 + i) := by omega
      simp [h1, h2, h3, h4, e]
    · have h4 : ¬ 1 ≤ width - 1 - i := by omega
      simp [h1, h4]
  by_cases hb : s.testBit (width - 1) = true
  · rw [if_pos hb, if_pos hb, testBit_reflect _ _ _ hw1 hw, ← hshift]
    cases decide (i < width) <;> simp
  · rw [if_neg hb, if_neg hb, ← hshift]
    cases decide (i < width) <;> simp

theorem reflect_loop_wide (width p : Nat) (hw1 : 1 ≤ width) (hw : width ≤ 64) :
    ∀ (k s : Nat), crcfactory_reflect width (loop (step_wide width p) k s)
      = loop (step_reflected (crcfactory_reflect width p)) k (crcfactory_reflect width s) := by
  intro k
  induction k with
  | zero => intro s; rfl
  | succ k ih =>
    intro s
    simp only [loop]
    rw [ih, reflect_step_wide width p s hw1 hw]

theorem reflect_xor_byte (width s d : Nat) (hw8 : 8 ≤ width) (hw : width ≤ 64)
    (hd : d < 256) :
    crcfactory_reflect width (s ^^^ shl (crcfactory_reflect 8 d) (width - 8))
      = crcfactory_reflect width s ^^^ d := by
  apply Nat.eq_of_testBit_eq
  intro i
  rw [testBit_reflect _ _ _ (by omega) hw, Nat.testBit_xor, Nat.testBit_xor,
    testBit_shl _ (by omega), testBit_reflect _ _ _ (by decide) (by decide),
    testBit_reflect _ _ _ (by omega) hw]
  by_cases h1 : i < 8
  · have h2 : i < width := by omega
    have h3 : width - 1 - i < 64 := by omega
    have h4 : width - 8 ≤ width - 1 - i := by omega
    have h5 : width - 1 - i - (width - 8) < 8 := by omega
    have e : 8 - 1 - (width - 1 - i - (width - 8)) = i := by omega
    simp [h2, h3, h4, h5, e]
  · have hdi : d.testBit i = false := testBit_of_ge_of_lt (n := 8) hd (by omega)
    by_cases h2 : i < width
    · have h4 : ¬ width - 8 ≤ width - 1 - i := by omega
      simp [h2, h4, hdi]
    · simp [h2, hdi]

/-- One byte: the non-reflected update on the bit-reversed byte, reflected, is the
reflected update on the byte. -/
theorem reflect_update_wide (width p s d : Nat) (hw8 : 8 ≤ width) (hw : width ≤ 64)
    (hd : d < 256) :
    crcfactory_reflect width (crcfactory_update width false p s (crcfactory_reflect 8 d))
      = crcfactory_update width true (crcfactory_reflect width p)
          (crcfactory_reflect width s) d := by
  have hlt : ¬ width < 8 := by omega
  simp only [crcfactory_update, Bool.false_eq_true, if_false, hlt, if_true]
  rw [reflect_loop_wide width p (by omega) hw, reflect_xor_byte width s d hw8 hw hd]

theorem reflect_foldl_wide (width p : Nat) (hw8 : 8 ≤ width) (hw : width ≤ 64) :
    ∀ (data : List Nat), (∀ b ∈ data, b < 256) → ∀ (s : Nat),
      crcfactory_reflect width
          ((reflect_bytes data).foldl
            (fun state d => crcfactory_update width false p state d) s)
        = data.foldl (fun state d => crcfactory_update width true
            (crcfactory_reflect width p) state d) (crcfactory_reflect width s) := by
  intro data
  induction data with
  | nil => intro _ s; rfl
  | cons d ds ih =>
    intro hb s
    simp only [reflect_bytes, List.map_cons, List.foldl_cons]
    rw [← reflect_update_wide width p s d hw8 hw (hb d (List.mem_cons_self d ds))]
    exact ih (fun b hb' => hb b (List.mem_cons_of_mem d hb')) _

theorem reflect8_shl_justify (width x : Nat) (hw1 : 1 ≤ width) (hw : width < 8) :
    crcfactory_reflect 8 (shl x (8 - width)) = crcfactory_reflect width x := by
  apply Nat.eq_of_testBit_eq
  intro i
  rw [testBit_reflect _ _ _ (by decide) (by decide), testBit_reflect _ _ _ hw1 (by omega),
    testBit_shl _ (by omega)]
  by_cases h1 : i < width
  · have h2 : i < 8 := by omega
    have h3 : 8 - 1 - i < 64 := by omega
    have h4 : 8 - width ≤ 8 - 1 - i := by omega
    have e : 8 - 1 - i - (8 - width) = width - 1 - i := by omega
    simp [h1, h2, h3, h4, e]
  · have h4 : ¬ 8 - width ≤ 8 - 1 - i := by omega
    simp [h1, h4]

theorem reflect_shr_justified (width s : Nat) (hw1 : 1 ≤ width) (hw : width < 8)
    (hlow : ∀ k, k < 8 - width → s.testBit k = false) :
    crcfactory_reflect width (shr (s &&& 0xff) (8 - width)) = crcfactory_reflect 8 s := by
  apply Nat.eq_of_testBit_eq
  intro i
  rw [testBit_reflect _ _ _ hw1 (by omega), testBit_reflect _ _ _ (by decide) (by decide),
    testBit_shr _ (by omega), and_ff, Nat.testBit_mod_two_pow]
  by_cases h1 : i < width
  · have h2 : i < 8 := by omega
    have h3 : 8 - width + (width - 1 - i) < 8 := by omega
    have e : 8 - width + (width - 1 - i) = 8 - 1 - i := by omega
    simp [h1, h2, e]
    omega
  · by_cases h2 : i < 8
    · have := hlow (8 - 1 - i) (by omega)
      simp [h1, h2, this]
    · simp [h1, h2]

theorem reflect_bytes_lt (data : List Nat) : ∀ b ∈ reflect_bytes data, b < 256 := by
  intro b hb
  simp only [reflect_bytes, List.mem_map] at hb
  obtain ⟨d, _, rfl⟩ := hb
  exact reflect_lt 8 d (by decide) (by decide)

theorem foldl_update_reflected_width (width p : Nat) (data : List Nat) (s : Nat) :
    data.foldl (fun state d => crcfactory_update 8 true p state d) s
      = data.foldl (fun state d => crcfactory_update width true p state d) s := by
  simp only [crcfactory_update, if_true]

theorem shl_low_clear (width x : Nat) (hw : width < 8) :
    ∀ i, i < 8 - width → (shl x (8 - width)).testBit i = false := by
  intro i hi
  rw [testBit_shl _ (by omega)]
  have : ¬ 8 - width ≤ i := by omega
  simp [this]

/-- Below `width = 64` reflected mode is the bit reversal of non-reflected mode: for
`1 ≤ width ≤ 63`, every `poly`, `iv`, `xorout` and every byte sequence, the reflected
checksum is the `width`-bit reversal of the non-reflected checksum (with `xorout = 0`) of
the message with every byte bit-reversed, XORed with `xorout`. -/
theorem reflected_is_bit_reversal_below_64 (width poly iv xorout : Nat) (data : List Nat)
    (hw1 : 1 ≤ width) (hw : width < 64) (hdata : ∀ b ∈ data, b < 256) :
    crcfactory_crc width true poly iv xorout data
      = crcfactory_reflect width
          (crcfactory_crc width false poly iv 0 (reflect_bytes data)) ^^^ xorout := by
  by_cases h8 : width < 8
  · have hle : width ≤ 8 := by omega
    have hlow := foldl_update_byte_low_clear width (shl poly (8 - width)) hle
      (shl_low_clear width poly h8) (reflect_bytes data) (reflect_bytes_lt data)
      (shl iv (8 - width)) (shl_low_clear width iv h8)
    simp only [crcfactory_crc, crcfactory_setup_poly, crcfactory_setup_state,
      crcfactory_result, Bool.false_eq_true, if_false, h8, if_true, Nat.xor_zero]
    rw [reflect_shr_justified width _ hw1 h8 hlow,
      foldl_update_sub_byte_eq width _ hle (reflect_bytes data) (reflect_bytes_lt data),
      reflect_foldl_wide 8 _ (Nat.le_refl 8) (by decide) data hdata,
      reflect8_shl_justify width poly hw1 h8, reflect8_shl_justify width iv hw1 h8,
      foldl_update_reflected_width width]
  · have h8' : 8 ≤ width := by omega
    simp only [crcfactory_crc, crcfactory_setup_poly, crcfactory_setup_state,
      Bool.false_eq_true, if_false, h8, if_true]
    rw [result_wide width 0 _ h8' hw, Nat.xor_zero, reflect_mod width _ hw1 (by omega),
      reflect_foldl_wide width poly h8' (by omega) data hdata]
    simp only [crcfactory_result, if_true]

/-- C14: the code breaks the claim at `width = 64`.  For CRC-64/XZ
(`poly = 0x42F0E1EBA9EA3693`, `iv = xorout = 0xFFFFFFFFFFFFFFFF`) over the bytes of
`"123456789"` the reflected checksum is `0x995DC9BBDF1939FA`, while the non-reflected
checksum of the bit-reversed bytes is masked to `0`, so its reversal XOR `xorout` is
`0xFFFFFFFFFFFFFFFF`. -/
theorem reflected_not_bit_reversal_at_width_64 :
    crcfactory_crc 64 true 0x42F0E1EBA9EA3693 0xFFFFFFFFFFFFFFFF 0xFFFFFFFFFFFFFFFF check_input
      = 0x995DC9BBDF1939FA ∧
    crcfactory_crc 64 false 0x42F0E1EBA9EA3693 0xFFFFFFFFFFFFFFFF 0
      (reflect_bytes check_input) = 0 ∧
    crcfactory_reflect 64 (crcfactory_crc 64 false 0x42F0E1EBA9EA3693 0xFFFFFFFFFFFFFFFF 0
      (reflect_bytes check_input)) ^^^ 0xFFFFFFFFFFFFFFFF = 0xFFFFFFFFFFFFFFFF ∧
    crcfactory_crc 64 true 0x42F0E1EBA9EA3693 0xFFFFFFFFFFFFFFFF 0xFFFFFFFFFFFFFFFF check_input
      ≠ crcfactory_reflect 64 (crcfactory_crc 64 false 0x42F0E1EBA9EA3693
          0xFFFFFFFFFFFFFFFF 0 (reflect_bytes check_input)) ^^^ 0xFFFFFFFFFFFFFFFF := by
  decide

/-! ## Appending the checksum -/

theorem loop_step_reflected_zero (p : Nat) : ∀ k, loop (step_reflected p) k 0 = 0 := by
  intro k
  induction k with
  | zero => rfl
  | succ k ih =>
    have h : step_reflected p 0 = 0 := by simp [step_reflected, shr]
    rw [loop, h, ih]

theorem loop_step_wide_zero (width p : Nat) : ∀ k, loop (step_wide width p) k 0 = 0 := by
  intro k
  induction k with
  | zero => rfl
  | succ k ih =>
    have h : step_wide width p 0 = 0 := by simp [step_wide, shl]
    rw [loop, h, ih]

/-- In reflected mode, feeding the low byte of the state shifts the state right by 8. -/
theorem update_reflected_low_byte (width p s : Nat) :
    crcfactory_update width true p s (s &&& 0xff) = s >>> 8 := by
  have hJ : ((s &&& 0xff) ^^^ s) &&& 0xff = 0 := by
    apply Nat.eq_of_testBit_eq
    intro i
    simp only [Nat.testBit_and, Nat.testBit_xor, Nat.zero_testBit]
    cases s.testBit i <;> cases Nat.testBit 0xff i <;> rfl
  rw [update_reflected_split width p s _ (and_ff_lt s), hJ]
  simp only [crcfactory_update, if_true, Nat.xor_self, Nat.zero_xor,
    loop_step_reflected_zero]
  exact shr_of_lt s (by decide)

theorem foldl_reflected_checksum_bytes (width p c : Nat) :
    ∀ (n k : Nat),
      ((List.range' k n).map fun k => (c >>> (8 * k)) &&& 0xff).foldl
          (fun state d => crcfactory_update width true p state d) (c >>> (8 * k))
        = c >>> (8 * (k + n)) := by
  intro n
  induction n with
  | zero => intro k; rfl
  | succ n ih =>
    intro k
    simp only [List.range'_succ, List.map_cons, List.foldl_cons]
    rw [update_reflected_low_byte, ← Nat.shiftRight_add,
      show 8 * k + 8 = 8 * (k + 1) by omega, ih (k + 1)]
    congr 1
    omega

/-- In non-reflected mode, feeding the top byte of the register shifts the register
left by 8, modulo `2 ^ width`. -/
theorem update_wide_top_byte (width p s d : Nat) (hw8 : 8 ≤ width) (hw : width ≤ 64)
    (hd : ∀ i, i < 8 → d.testBit i = s.testBit (width - 8 + i)) :
    crcfactory_update width false p s d % 2 ^ width = shl s 8 % 2 ^ width := by
  have hJ : (d ^^^ shr s (width - 8)) &&& 0xff = 0 := by
    apply Nat.eq_of_testBit_eq
    intro i
    rw [testBit_index_wide width s d i hw8 hw, Nat.zero_testBit]
    by_cases hi : i < 8
    · rw [hd i hi]
      simp
    · simp [hi]
  have hlt : ¬ width < 8 := by omega
  have hz : crcfactory_update width false p 0 0 = 0 := by
    simp only [crcfactory_update, Bool.false_eq_true, if_false, hlt, shl_zero_left,
      Nat.xor_self, loop_step_wide_zero]
  rw [update_wide_mod width p s d hw8 hw, hJ, hz, Nat.zero_xor]

theorem foldl_wide_checksum_bytes (width p S : Nat) (hw : width ≤ 64) :
    ∀ (n k s : Nat), 8 * (k + n) = width →
      s % 2 ^ width = (S <<< (8 * k)) % 2 ^ width →
      ((List.range' k n).map fun k =>
          ((S % 2 ^ width) >>> (width - 8 * (k + 1))) &&& 0xff).foldl
          (fun state d => crcfactory_update width false p state d) s % 2 ^ width = 0 := by
  intro n
  induction n with
  | zero =>
    intro k s hk hs
    simp only [List.range'_zero, List.map_nil, List.foldl_nil]
    rw [hs]
    apply Nat.eq_of_testBit_eq
    intro i
    rw [Nat.testBit_mod_two_pow, Nat.testBit_shiftLeft, Nat.zero_testBit]
    by_cases hi : i < width
    · have : ¬ i ≥ 8 * k := by omega
      simp [this]
    · simp [hi]
  | succ n ih =>
    intro k s hk hs
    simp only [List.range'_succ, List.map_cons, List.foldl_cons]
    apply ih (k + 1) _ (by omega)
    have hsb : ∀ i, i < width → s.testBit i = (decide (i ≥ 8 * k) && S.testBit (i - 8 * k)) := by
      intro i hi
      rw [testBit_eq_of_mod_eq hs hi, Nat.testBit_shiftLeft]
    rw [update_wide_top_byte width p s _ (by omega) hw]
    · apply mod_eq_of_testBit_eq
      intro i hi
      rw [testBit_shl _ (by decide), Nat.testBit_shiftLeft]
      by_cases h8 : 8 ≤ i
      · rw [hsb (i - 8) (by omega)]
        have h64 : i < 64 := by omega
        by_cases h1 : i ≥ 8 * (k + 1)
        · have h2 : i - 8 ≥ 8 * k := by omega
          have e : i - 8 - 8 * k = i - 8 * (k + 1) := by omega
          simp [h8, h64, h1, h2, e]
        · have h2 : ¬ i - 8 ≥ 8 * k := by omega
          simp [h1, h2]
      · have h1 : ¬ i ≥ 8 * (k + 1) := by omega
        simp [h8, h1]
    · intro i hi
      rw [and_ff, Nat.testBit_mod_two_pow, Nat.testBit_shiftRight, Nat.testBit_mod_two_pow,
        hsb (width - 8 + i) (by omega)]
      have h1 : width - 8 * (k + 1) + i < width := by omega
      have h2 : width - 8 + i ≥ 8 * k := by omega
      have e : width - 8 + i - 8 * k = width - 8 * (k + 1) + i := by omega
      simp [hi, h1, h2, e]

/-- C17: for `width` a multiple of 8 between 8 and 64, both values of `reflected`,
64-bit `poly` and `iv`, and every byte sequence, with `xorout = 0` the checksum of the
message followed by the bytes of its own checksum (most significant byte first when
non-reflected, least significant byte first when reflected) is zero. -/
theorem crc_append_checksum (width : Nat) (reflected : Bool) (poly iv : Nat)
    (data : List Nat) (hw8 : 8 ≤ width) (hw : width ≤ 64) (hdiv : width % 8 = 0)
    (_hpoly : poly < 2 ^ 64) (_hiv : iv < 2 ^ 64) (hdata : ∀ b ∈ data, b < 256) :
    crcfactory_crc width reflected poly iv 0
        (data ++ checksum_bytes width reflected
          (crcfactory_crc width reflected poly iv 0 data)) = 0 := by
  have hlt : ¬ width < 8 := by omega
  have hn : 8 * (0 + width / 8) = width := by omega
  cases reflected with
  | true =>
    have hS := foldl_update_reflected_lt width _
      (setup_poly_reflected_lt width poly (by omega) hw) data hdata _
      (setup_state_reflected_lt width iv (by omega) hw)
    simp only [crcfactory_crc, crcfactory_result, if_true, Nat.xor_zero, checksum_bytes,
      List.foldl_append, List.range_eq_range']
    have h := foldl_reflected_checksum_bytes width (crcfactory_setup_poly width true poly)
      (data.foldl (fun state d => crcfactory_update width true
        (crcfactory_setup_poly width true poly) state d)
        (crcfactory_setup_state width true iv)) (width / 8) 0
    simp only [Nat.mul_zero, Nat.shiftRight_zero] at h
    rw [h, hn, Nat.shiftRight_eq_div_pow]
    exact Nat.div_eq_of_lt hS
  | false =>
    simp only [crcfactory_crc, List.foldl_append]
    rcases Nat.lt_or_ge width 64 with h64 | h64
    · rw [result_wide width 0 _ hw8 h64, Nat.xor_zero, result_wide width 0 _ hw8 h64,
        Nat.xor_zero]
      simp only [checksum_bytes, Bool.false_eq_true, if_false, List.range_eq_range']
      exact foldl_wide_checksum_bytes width _ _ hw (width / 8) 0 _ hn (by simp)
    · have e : width = 64 := by omega
      subst e
      rw [result_64]

theorem crc_append_checksum_witness :
    (8 ≤ 16 ∧ 16 ≤ 64 ∧ 16 % 8 = 0 ∧ 0x1021 < 2 ^ 64 ∧ 0xFFFF < 2 ^ 64 ∧
      ∀ b ∈ check_input, b < 256) ∧
    crcfactory_crc 16 false 0x1021 0xFFFF 0
        (check_input ++ checksum_bytes 16 false
          (crcfactory_crc 16 false 0x1021 0xFFFF 0 check_input)) = 0 :=
  ⟨by decide, crc_append_checksum 16 false 0x1021 0xFFFF check_input (by decide) (by decide)
    (by decide) (by decide) (by decide) (by decide)⟩

/-! ## Table reads stay in range -/

theorem table_init_get_eq_none_iff (width : Nat) (reflected : Bool) (poly j : Nat) :
    (crcfactory_table_init width reflected poly)[j]? = none ↔ 256 ≤ j := by
  rw [List.getElem?_eq_none_iff, table_init_length]

/-- A read of `crcfactory_table_update` fails exactly when `table_index` is outside the
256-entry table. -/
theorem table_update_eq_none_iff (width : Nat) (reflected : Bool) (poly s d : Nat) :
    crcfactory_table_update width reflected (crcfactory_table_init width reflected poly) s d
        = none ↔ 256 ≤ table_index width reflected s d := by
  unfold crcfactory_table_update table_index
  split_ifs
  · rw [Option.map_eq_none', table_init_get_eq_none_iff]
  · exact table_init_get_eq_none_iff _ _ _ _
  · rw [Option.map_eq_none', table_init_get_eq_none_iff]

theorem xor_ge_of_ge (d s : Nat) (hd : d < 256) (hs : 256 ≤ s) : 256 ≤ d ^^^ s := by
  by_contra h
  have hlt : d ^^^ s < 2 ^ 8 := by omega
  have := Nat.xor_lt_two_pow (n := 8) hd hlt
  rw [Nat.xor_cancel_left] at this
  omega

theorem setup_state_byte_ge (width iv : Nat) (hw : width ≤ 8) (hlo : 256 ≤ iv)
    (hhi : iv < 2 ^ (56 + width)) : 256 ≤ crcfactory_setup_state width false iv := by
  simp only [crcfactory_setup_state, Bool.false_eq_true, if_false]
  split_ifs with h
  · rw [shl_of_lt _ (by omega), Nat.shiftLeft_eq, Nat.mod_eq_of_lt]
    · exact Nat.le_trans hlo (Nat.le_mul_of_pos_right _ (Nat.two_pow_pos _))
    · calc iv * 2 ^ (8 - width) < 2 ^ (56 + width) * 2 ^ (8 - width) :=
            Nat.mul_lt_mul_of_pos_right hhi (Nat.two_pow_pos _)
        _ = 2 ^ 64 := by rw [← Nat.pow_add]; congr 1; omega
  · exact hlo

/-- One table-driven update always finds its entry when the data byte is a byte and, in
the non-reflected mode for `width ≤ 8`, the state is a byte; the new state is then a byte
again in that mode. -/
theorem table_update_some (width : Nat) (reflected : Bool) (poly t d : Nat) (hd : d < 256)
    (ht : reflected = false → width ≤ 8 → t < 256) :
    ∃ t', crcfactory_table_update width reflected
        (crcfactory_table_init width reflected poly) t d = some t' ∧
      (reflected = false → width ≤ 8 → t' < 256) := by
  unfold crcfactory_table_update
  split_ifs with hr h8
  · rw [table_init_get _ _ _ _ (and_ff_lt _), Option.map_some']
    exact ⟨_, rfl, fun hf => by rw [hr] at hf; exact absurd hf (by simp)⟩
  · have hrf : reflected = false := by simpa using hr
    have hidx : d ^^^ t < 256 := Nat.xor_lt_two_pow (n := 8) hd (ht hrf h8)
    rw [table_init_get _ _ _ _ hidx]
    refine ⟨_, rfl, fun _ _ => ?_⟩
    subst hrf
    simp only [_crcfactory_mask, Bool.not_false, Bool.true_and, h8, decide_True, if_true]
    exact and_ff_lt _
  · rw [table_init_get _ _ _ _ (and_ff_lt _), Option.map_some']
    exact ⟨_, rfl, fun _ h => absurd h h8⟩

theorem table_loop_some (width : Nat) (reflected : Bool) (poly : Nat) :
    ∀ (data : List Nat), (∀ b ∈ data, b < 256) → ∀ (t : Nat),
      (reflected = false → width ≤ 8 → t < 256) →
      ∃ t', table_loop width reflected (crcfactory_table_init width reflected poly) data t
          = some t' ∧
        (reflected = false → width ≤ 8 → t' < 256) := by
  intro data
  induction data with
  | nil => intro _ t ht; exact ⟨t, rfl, ht⟩
  | cons d ds ih =>
    intro hb t ht
    obtain ⟨t1, h1, h2⟩ := table_update_some width reflected poly t d
      (hb d (List.mem_cons_self d ds)) ht
    obtain ⟨t2, h3, h4⟩ := ih (fun b hb' => hb b (List.mem_cons_of_mem d hb')) t1 h2
    exact ⟨t2, by simp only [table_loop, h1, Option.some_bind, h3], h4⟩

/-- C15, as stated, fails in its last clause: for `width = 7`, `reflected = false` and
`iv = 2 ^ 63 ≥ 256`, the normalized state `iv << 1` wraps to `0` in 64 bits, so the first
index on the byte `0x31` is `0x31`, inside the table, and the table-driven checksum is
computed. -/
theorem first_index_in_range_for_large_iv :
    256 ≤ 2 ^ 63 ∧
    crcfactory_setup_state 7 false (2 ^ 63) = 0 ∧
    table_index 7 false (crcfactory_setup_state 7 false (2 ^ 63)) 0x31 = 0x31 ∧
    crcfactory_table_crc 7 false (crcfactory_table_init 7 false 0x9) (2 ^ 63) 0 [0x31]
      ≠ none := by
  decide

/-- C15 amended: for `1 ≤ width ≤ 64`, both values of `reflected`, 64-bit `poly`,
`iv < 2 ^ width` and every byte sequence: a table read fails exactly when `table_index` is
at least 256; before every byte of the message the table-driven state exists, is below 256
in the non-reflected mode for `width ≤ 8`, and the index read for that byte is below 256;
and in that mode, for `256 ≤ iv' < 2 ^ (56 + width)` the first index is out of range and
`crcfactory_table_crc` has no value. -/
theorem table_index_in_range (width : Nat) (reflected : Bool) (poly iv xorout : Nat)
    (data : List Nat) (_hw1 : 1 ≤ width) (_hw : width ≤ 64) (_hpoly : poly < 2 ^ 64)
    (hiv : iv < 2 ^ width) (hdata : ∀ b ∈ data, b < 256) :
    (∀ s d, crcfactory_table_update width reflected
        (crcfactory_table_init width reflected poly) s d = none
      ↔ 256 ≤ table_index width reflected s d) ∧
    (∀ n, ∃ t, table_loop width reflected (crcfactory_table_init width reflected poly)
        (data.take n) (crcfactory_setup_state width reflected iv) = some t ∧
      (reflected = false → width ≤ 8 → t < 256) ∧
      ∀ d, data[n]? = some d → table_index width reflected t d < 256) ∧
    (reflected = false → width ≤ 8 → ∀ iv' d ds, 256 ≤ iv' → iv' < 2 ^ (56 + width) →
      d < 256 →
      256 ≤ table_index width reflected (crcfactory_setup_state width reflected iv') d ∧
      crcfactory_table_crc width reflected (crcfactory_table_init width reflected poly)
        iv' xorout (d :: ds) = none) := by
  refine ⟨fun s d => table_update_eq_none_iff width reflected poly s d, ?_, ?_⟩
  · intro n
    obtain ⟨t, h1, hbyte⟩ := table_loop_some width reflected poly (data.take n)
      (fun b hb => hdata b (List.mem_of_mem_take hb))
      (crcfactory_setup_state width reflected iv)
      (fun hr h8 => by subst hr; exact setup_state_byte_lt width iv h8 hiv)
    refine ⟨t, h1, hbyte, ?_⟩
    intro d hd
    have hd256 : d < 256 := hdata d (List.getElem?_mem hd)
    unfold table_index
    split_ifs with hr h8
    · exact and_ff_lt _
    · exact Nat.xor_lt_two_pow (n := 8) hd256 (hbyte (by simpa using hr) h8)
    · exact and_ff_lt _
  · intro hr h8 iv' d ds hlo hhi hd
    subst hr
    have hs := setup_state_byte_ge width iv' h8 hlo hhi
    have hidx : 256 ≤ table_index width false (crcfactory_setup_state width false iv') d := by
      simp only [table_index, Bool.false_eq_true, if_false, h8, if_true]
      exact xor_ge_of_ge d _ hd hs
    refine ⟨hidx, ?_⟩
    simp only [crcfactory_table_crc, table_loop,
      (table_update_eq_none_iff width false poly _ d).mpr hidx, Option.none_bind,
      Option.map_none']

theorem table_index_in_range_witness :
    (1 ≤ 3 ∧ 3 ≤ 64 ∧ 0x3 < 2 ^ 64 ∧ 0x5 < 2 ^ 3 ∧ ∀ b ∈ check_input, b < 256) ∧
    ((∀ s d, crcfactory_table_update 3 false (crcfactory_table_init 3 false 0x3) s d = none
      ↔ 256 ≤ table_index 3 false s d) ∧
    (∀ n, ∃ t, table_loop 3 false (crcfactory_table_init 3 false 0x3)
        (check_input.take n) (crcfactory_setup_state 3 false 0x5) = some t ∧
      (false = false → 3 ≤ 8 → t < 256) ∧
      ∀ d, check_input[n]? = some d → table_index 3 false t d < 256) ∧
    (false = false → 3 ≤ 8 → ∀ iv' d ds, 256 ≤ iv' → iv' < 2 ^ (56 + 3) →
      d < 256 →
      256 ≤ table_index 3 false (crcfactory_setup_state 3 false iv') d ∧
      crcfactory_table_crc 3 false (crcfactory_table_init 3 false 0x3)
        iv' 0x7 (d :: ds) = none)) :=
  ⟨by decide, table_index_in_range 3 false 0x3 0x5 0x7 check_input (by decide) (by decide)
    (by decide) (by decide) (by decide)⟩

/-! ## Catalogue check values -/

/-- C2: over the bytes of `"123456789"`, CRC-8 (`poly = 0x07`, `iv = 0`, `xorout = 0`)
is `0xF4` and CRC-16/CCITT-FALSE (`poly = 0x1021`, `iv = 0xFFFF`, `xorout = 0`) is
`0x29B1`. -/
theorem check_values_non_reflected :
    crcfactory_crc 8 false 0x07 0x00 0x00 check_input = 0xF4 ∧
    crcfactory_crc 16 false 0x1021 0xFFFF 0x0000 check_input = 0x29B1 := by
  decide

/-- C3: over the bytes of `"123456789"`, CRC-32 (reflected, `poly = 0x04C11DB7`) is
`0xCBF43926` and CRC-64/XZ (reflected, `poly = 0x42F0E1EBA9EA3693`) is
`0x995DC9BBDF1939FA`. -/
theorem check_values_reflected :
    crcfactory_crc 32 true 0x04C11DB7 0xFFFFFFFF 0xFFFFFFFF check_input = 0xCBF43926 ∧
    crcfactory_crc 64 true 0x42F0E1EBA9EA3693 0xFFFFFFFFFFFFFFFF 0xFFFFFFFFFFFFFFFF check_input
      = 0x995DC9BBDF1939FA := by
  decide

/-- C8: CRC-3/GSM (`width = 3`, `poly = 0x3`, `iv = 0`, `xorout = 0x7`) over the bytes of
`"123456789"` is `0x4` on the bitwise path, and the table-driven path on the table from
`crcfactory_table_init 3 false 0x3` returns the same value. -/
theorem check_value_sub_byte :
    crcfactory_crc 3 false 0x3 0x0 0x7 check_input = 0x4 ∧
    crcfactory_table_crc 3 false (crcfactory_table_init 3 false 0x3) 0x0 0x7 check_input
      = some 0x4 := by
  decide

end Crcfactory
